import Mathlib

/-!
# Huffman encoder: tree, instruction string, stack machine, code table

A shallow embedding of `assignment4/hufftree.c` and `assignment4/encoder.c`.

* Bytes (`uint8_t`, `char`) are natural numbers below 256.
* `uint64_t` arithmetic is written with an explicit `% 2 ^ 64`.
* A pointer that may be `NULL` is an `Option`.
* `hufftree.h`, `bitvector.c` and `priorityqueue.c` are not among the sources; what the
  code needs from them is either a parameter or a definition marked as modelled from the
  specification.
-/

namespace Huffman

/-! ## Tree nodes (hufftree.c) -/

/-- A `treeNode`. The `leaf` flag of the C struct is the constructor: `leafNode` is a node
with `leaf = true` and both children `NULL` (as `newNode` leaves them after `calloc`),
`joinNode` is a node with `leaf = false` whose two children have been set (as `join`
does). -/
inductive treeNode where
  | leafNode (symbol : Nat) (frequency : Nat) : treeNode
  | joinNode (symbol : Nat) (frequency : Nat) (left right : treeNode) : treeNode
  deriving DecidableEq, Repr

namespace treeNode

/-- The field `symbol`. -/
def symbol : treeNode → Nat
  | leafNode s _ => s
  | joinNode s _ _ _ => s

/-- The field `frequency`. -/
def frequency : treeNode → Nat
  | leafNode _ f => f
  | joinNode _ f _ _ => f

/-- The field `leaf`. -/
def leaf : treeNode → Bool
  | leafNode _ _ => true
  | joinNode _ _ _ _ => false

end treeNode

open treeNode

/-- The call `newNode(s, true, f)`: a leaf with symbol `s` and frequency `f`
(a `uint64_t`). -/
def newNode (s : Nat) (f : Nat) : treeNode :=
  leafNode s (f % 2 ^ 64)

/-- The function `join`: `newNode('*', false, l->frequency + r->frequency)` with `left = l`
and `right = r`. The sum is a `uint64_t` sum. -/
def join (l r : treeNode) : treeNode :=
  joinNode 42 ((l.frequency + r.frequency) % 2 ^ 64) l r

/-! ## Instruction strings (hufftree.c) -/

/-- The bytes of the C string that starts at the head of `mem`: everything before the
first zero byte. -/
def cstr (mem : List Nat) : List Nat :=
  mem.takeWhile (fun b => b != 0)

/-- The library function `strcat`: the destination string followed by the bytes of the
source C string. A string is the list of its bytes before the terminator. -/
def strcat (dst : List Nat) (src : List Nat) : List Nat :=
  dst ++ cstr src

/-- The function `generateTreeInstructions`. At a leaf it calls `strcat` with `"L"` and
then with `(char*)&(node->symbol)`, the C string that starts at the symbol byte. The
layout of the struct is declared in `hufftree.h`, which is not among the sources, so the
bytes that lie behind `symbol` in a leaf are the parameter `after`. -/
def generateTreeInstructions (after : List Nat) : treeNode → List Nat → List Nat
  | leafNode s _, instructions =>
      strcat (strcat instructions [76, 0]) (s :: after)
  | joinNode _ _ l r, instructions =>
      strcat (generateTreeInstructions after r (generateTreeInstructions after l instructions))
        [74, 0]

/-! ## The stack (hufftree.c) -/

/-- The struct `huffStack`: `size` slots of node pointers and the index `top` of the first
free slot. -/
structure huffStack where
  entries : List (Option treeNode)
  size : Nat
  top : Nat
  deriving DecidableEq, Repr

/-- The function `newHuffStack`: `newSize` slots, all `NULL`, `top = 0`. -/
def newHuffStack (newSize : Nat) : huffStack :=
  { entries := List.replicate newSize none, size := newSize, top := 0 }

/-- The function `emptyHuffStack`. -/
def emptyHuffStack (stack : huffStack) : Bool :=
  stack.top == 0

/-- The function `fullHuffStack`. -/
def fullHuffStack (stack : huffStack) : Bool :=
  stack.top == stack.size

/-- The function `pushHuffStack`: nothing happens on a full stack. -/
def pushHuffStack (stack : huffStack) (node : Option treeNode) : huffStack :=
  if !fullHuffStack stack then
    { stack with entries := stack.entries.set stack.top node, top := stack.top + 1 }
  else stack

/-- The function `popHuffStack`: the popped pointer (`NULL` on an empty stack) and the
stack afterwards. -/
def popHuffStack (stack : huffStack) : Option treeNode × huffStack :=
  if !emptyHuffStack stack then
    ((stack.entries.getD (stack.top - 1) none),
      { stack with entries := stack.entries.set (stack.top - 1) none, top := stack.top - 1 })
  else (none, stack)

/-! ## Rebuilding a tree from its instructions (hufftree.c) -/

/-- The local variables of `rebuildTree`. `node` is `none` while it is not initialised. -/
structure RebuildState where
  index : Nat
  stack : huffStack
  node : Option treeNode
  deriving DecidableEq, Repr

/-- How a run of `rebuildTree` ends: it returns the pointer `node`, or `join` dereferences
a `NULL` pointer, or the loop is still running when the fuel of the model is used up. -/
inductive RebuildResult where
  | returned (node : Option treeNode) : RebuildResult
  | nullDereference : RebuildResult
  | outOfFuel : RebuildResult
  deriving DecidableEq, Repr

/-- The call `join(popHuffStack(stack), popHuffStack(stack))`. C leaves the order in which
the two arguments are evaluated to the compiler: `argsRightToLeft` says that the second
argument is evaluated (popped) first. `join` reads `l->frequency` and `r->frequency`, so a
`NULL` argument gives `none`. -/
def joinPopped (argsRightToLeft : Bool) (stack : huffStack) : Option (treeNode × huffStack) :=
  let p1 := popHuffStack stack
  let p2 := popHuffStack p1.2
  let l := if argsRightToLeft then p2.1 else p1.1
  let r := if argsRightToLeft then p1.1 else p2.1
  match l, r with
  | some l, some r => some (join l r, p2.2)
  | _, _ => none

/-- One pass through the body of the `while` loop of `rebuildTree`; `none` is a `NULL`
dereference. A read of `instructions` behind its last byte gives 0, the terminator of the
string. In the last branch the body only prints a message. -/
def rebuildStep (argsRightToLeft : Bool) (instructions : List Nat) (s : RebuildState) :
    Option RebuildState :=
  if instructions.getD s.index 0 = 76 then
    let node := newNode (instructions.getD (s.index + 1) 0) 0
    some { index := s.index + 2, stack := pushHuffStack s.stack (some node), node := some node }
  else if instructions.getD s.index 0 = 74 then
    match joinPopped argsRightToLeft s.stack with
    | some (node, stack) =>
        some { index := s.index + 1, stack := pushHuffStack stack (some node), node := some node }
    | none => none
  else
    some s

/-- The `while (index < size)` loop of `rebuildTree`, run for at most `fuel` passes. -/
def rebuildLoop (argsRightToLeft : Bool) (instructions : List Nat) (size : Int) :
    Nat → RebuildState → RebuildResult
  | 0, s => if (s.index : Int) < size then .outOfFuel else .returned s.node
  | fuel + 1, s =>
      if (s.index : Int) < size then
        match rebuildStep argsRightToLeft instructions s with
        | some s1 => rebuildLoop argsRightToLeft instructions size fuel s1
        | none => .nullDereference
      else .returned s.node

/-- The function `rebuildTree`: `index = 0`, a new stack of 1000 slots, `node` not
initialised, then the loop. -/
def rebuildTree (argsRightToLeft : Bool) (fuel : Nat) (instructions : List Nat) (size : Int) :
    RebuildResult :=
  rebuildLoop argsRightToLeft instructions size fuel
    { index := 0, stack := newHuffStack 1000, node := none }

/-! ## Bit vectors and the code table (encoder.c, bitvector.c) -/

/-- Modelled from the spec: `bitvector.c` is not among the sources. A `bitV` is the
BitSequence of the specification, "a growable ordered sequence of bits". -/
abbrev bitV := List Bool

/-- Modelled from the spec: `newBitVector` of the missing `bitvector.c`; a new bit sequence
holds no bits. -/
def newBitVector (_length : Nat) : bitV := []

/-- Modelled from the spec: `appendBit` of the missing `bitvector.c`, the `append(bit)` of
the specification. -/
def appendBit (v : bitV) (bit : Bool) : bitV := v ++ [bit]

/-- Modelled from the spec: `removeBitFromEnd` of the missing `bitvector.c`, the
`remove_last()` of the specification. -/
def removeBitFromEnd (v : bitV) : bitV := v.dropLast

/-- Modelled from the spec: `appendCode` of the missing `bitvector.c`; the bits of `code`
are copied behind those of `v` ("store a copy of `prefix` as the leaf's code"). -/
def appendCode (v : bitV) (code : bitV) : bitV := v ++ code

/-- The array `bitV **codes`: one pointer for each symbol, `NULL` (absent) or a code. -/
abbrev CodeTable := Nat → Option bitV

/-- The table after `calloc(256, sizeof(bitV*))`: every entry absent. -/
def emptyCodes : CodeTable := fun _ => none

/-- The assignment `codes[symbol] = v`. -/
def setCode (codes : CodeTable) (symbol : Nat) (v : bitV) : CodeTable :=
  fun i => if i = symbol then some v else codes i

/-- The function `assignCodes`. `currentCode` is passed by value, so each call works on its
own copy. -/
def assignCodes : treeNode → CodeTable → bitV → CodeTable
  | leafNode s _, codes, currentCode =>
      setCode codes s (appendCode (newBitVector 8) currentCode)
  | joinNode _ _ l r, codes, currentCode =>
      let code0 := appendBit currentCode false
      let codes1 := assignCodes l codes code0
      let code1 := appendBit (removeBitFromEnd code0) true
      assignCodes r codes1 code1

/-! ## The priority queue (priorityqueue.c) -/

/-- Modelled from the spec: `priorityqueue.c` is not among the sources. The PriorityQueue
of the specification is "a bounded collection" of nodes; `entries` holds them in the order
of their insertion. -/
structure huffPQueue where
  capacity : Nat
  entries : List treeNode
  deriving DecidableEq, Repr

/-- Modelled from the spec: `newHuffPQueue` of the missing `priorityqueue.c`, an empty
queue of the given capacity. -/
def newHuffPQueue (capacity : Nat) : huffPQueue :=
  { capacity := capacity, entries := [] }

/-- Modelled from the spec: `emptyHuffPQueue` of the missing `priorityqueue.c`, the
`is_empty()` of the specification. -/
def emptyHuffPQueue (q : huffPQueue) : Bool :=
  q.entries.isEmpty

/-- Modelled from the spec: `enqueueHuffPQueue` of the missing `priorityqueue.c`,
"`enqueue(node)` inserts". The collection is bounded; the specification does not say what
happens to a node offered to a full queue, and the model leaves the queue as it is. -/
def enqueueHuffPQueue (q : huffPQueue) (node : treeNode) : huffPQueue :=
  if q.entries.length < q.capacity then { q with entries := q.entries ++ [node] } else q

/-- Modelled from the spec: the choice that the dequeue of the missing `priorityqueue.c`
makes among the entries `t :: ts`, with the entries that stay: "dequeue always yields the
minimum-weight element currently present", and "when two nodes have equal weight,
insertion order is preserved (first-inserted dequeues first)". -/
def removeMin : treeNode → List treeNode → treeNode × List treeNode
  | t, [] => (t, [])
  | t, u :: us =>
      let p := removeMin u us
      if t.frequency ≤ p.1.frequency then (t, u :: us) else (p.1, t :: p.2)

/-- Modelled from the spec: `dequeueHuffPQueue` of the missing `priorityqueue.c`,
"`dequeue()` removes and returns the minimum-weight node, fails with `EmptyQueueError` if
nothing remains" (`none`). -/
def dequeueHuffPQueue (q : huffPQueue) : Option (treeNode × huffPQueue) :=
  match q.entries with
  | [] => none
  | t :: ts => some ((removeMin t ts).1, { q with entries := (removeMin t ts).2 })

/-! ## The histogram and the build loop (encoder.c, main) -/

/-- The function `findNumberOfLeaves`: the number of entries above zero among the 256
entries of the histogram (an array of `int`). -/
def findNumberOfLeaves (histogram : List Int) : Nat :=
  ((List.range 256).filter (fun i => decide (histogram.getD i 0 > 0))).length

/-- Step 4 of `main`: for `i` from 0 to 255, a leaf `newNode(i, true, histogram[i])` is
enqueued when `histogram[i] >= 1`. These are the leaves in that order. -/
def histogramLeaves (histogram : List Int) : List treeNode :=
  ((List.range 256).filter (fun i => decide (histogram.getD i 0 ≥ 1))).map
    (fun i => newNode i (histogram.getD i 0).toNat)

/-- The queue after the given nodes have been enqueued one after the other. -/
def seedQueue (q : huffPQueue) (nodes : List treeNode) : huffPQueue :=
  nodes.foldl enqueueHuffPQueue q

/-- The variables of step 5 of `main`. `joins` is not a variable of the program: it counts
the calls of `join`. -/
structure BuildState where
  treeQueue : huffPQueue
  huffmanTree : Option treeNode
  joins : Nat
  deriving DecidableEq, Repr

/-- One pass through the body of the `while` loop of step 5; `none` is a failed dequeue. -/
def buildStep (s : BuildState) : Option BuildState :=
  match dequeueHuffPQueue s.treeQueue with
  | none => none
  | some (huffmanTree, q1) =>
      if !emptyHuffPQueue q1 then
        match dequeueHuffPQueue q1 with
        | none => none
        | some (tempTree, q2) =>
            some { treeQueue := enqueueHuffPQueue q2 (join huffmanTree tempTree),
                   huffmanTree := some (join huffmanTree tempTree),
                   joins := s.joins + 1 }
      else some { s with treeQueue := q1, huffmanTree := some huffmanTree }

/-- The loop `while (!emptyHuffPQueue(treeQueue))` of step 5, run for at most `fuel`
passes; `none` when the fuel is used up before the queue is empty, or a dequeue fails. -/
def buildLoop : Nat → BuildState → Option BuildState
  | 0, s => if !emptyHuffPQueue s.treeQueue then none else some s
  | fuel + 1, s =>
      if !emptyHuffPQueue s.treeQueue then
        match buildStep s with
        | some s1 => buildLoop fuel s1
        | none => none
      else some s

/-- Steps 4 and 5 of `main` for a queue of the given capacity and the given leaves:
`huffmanTree` starts as `NULL`. -/
def buildTree (fuel : Nat) (capacity : Nat) (leaves : List treeNode) : Option BuildState :=
  buildLoop fuel
    { treeQueue := seedQueue (newHuffPQueue capacity) leaves, huffmanTree := none, joins := 0 }

/-! ## Notions used to state the properties -/

/-- The reference serialisation: `ser(leaf s) = ['L', s]` and
`ser(internal l r) = ser(l) ++ ser(r) ++ ['J']`. -/
def ser : treeNode → List Nat
  | leafNode s _ => [76, s]
  | joinNode _ _ l r => ser l ++ ser r ++ [74]

/-- The symbols of the leaves, from left to right. -/
def leafSymbols : treeNode → List Nat
  | leafNode s _ => [s]
  | joinNode _ _ l r => leafSymbols l ++ leafSymbols r

/-- The number of leaves. -/
def numLeaves : treeNode → Nat
  | leafNode _ _ => 1
  | joinNode _ _ l r => numLeaves l + numLeaves r

/-- The number of nodes: one token of the instruction string each. -/
def numNodes : treeNode → Nat
  | leafNode _ _ => 1
  | joinNode _ _ l r => numNodes l + numNodes r + 1

/-- Structural identity of two trees: the same leaf/internal shape and the same symbol at
every leaf; frequencies and the symbol field of internal nodes are not compared. -/
def sameShape : treeNode → treeNode → Bool
  | leafNode s _, leafNode s1 _ => s == s1
  | joinNode _ _ l r, joinNode _ _ l1 r1 => sameShape l l1 && sameShape r r1
  | _, _ => false

/-- The tree that the stack machine makes of the instructions of a tree: leaves with
frequency 0 (`newNode(symbol, true, 0)`), joined by `join`. -/
def rebuilt : treeNode → treeNode
  | leafNode s _ => newNode s 0
  | joinNode _ _ l r => join (rebuilt l) (rebuilt r)

/-- The number of stack slots that the instructions of a tree need: the left subtree is
rebuilt first and stays on the stack while the right one is rebuilt. -/
def stackNeed : treeNode → Nat
  | leafNode _ _ => 1
  | joinNode _ _ l r => max (stackNeed l) (stackNeed r + 1)

/-- A stack of capacity `size` that holds the given nodes, the head of the list on top. -/
def stackOf (items : List treeNode) (size : Nat) : huffStack :=
  { entries := items.reverse.map some ++ List.replicate (size - items.length) none,
    size := size, top := items.length }

/-- A tree of `n + 1` leaves with symbol `'a'` whose right spine has `n` internal nodes. -/
def comb : Nat → treeNode
  | 0 => leafNode 97 0
  | n + 1 => joinNode 42 0 (leafNode 97 0) (comb n)

/-- The instructions of `m` leaves with symbol `'a'`. -/
def leafRun : Nat → List Nat
  | 0 => []
  | m + 1 => 76 :: 97 :: leafRun m

/-- A token of the instruction string: a leaf token with its symbol, or a join token. -/
inductive Token where
  | leafTok (symbol : Nat) : Token
  | joinTok : Token
  deriving DecidableEq, Repr

/-- The bytes of a token: `'L'` followed by the symbol byte, or `'J'`. -/
def Token.bytes : Token → List Nat
  | .leafTok s => [76, s]
  | .joinTok => [74]

/-- Whether a token is a join token. -/
def Token.isJoin : Token → Bool
  | .leafTok _ => false
  | .joinTok => true

/-- Whether a token is a leaf token. -/
def Token.isLeaf : Token → Bool
  | .leafTok _ => true
  | .joinTok => false

/-- The bytes of a sequence of tokens. -/
def tokenBytes : List Token → List Nat
  | [] => []
  | t :: ts => t.bytes ++ tokenBytes ts

/-- The tokens of a tree in post-order. -/
def tokensOf : treeNode → List Token
  | leafNode s _ => [.leafTok s]
  | joinNode _ _ l r => tokensOf l ++ tokensOf r ++ [.joinTok]

/-- The leaf that the turns `path` lead to from the root: `false` (bit 0) is a step to the
left child, `true` (bit 1) a step to the right child. -/
def leafAt : treeNode → List Bool → Option Nat
  | leafNode s _, [] => some s
  | leafNode _ _, _ :: _ => none
  | joinNode _ _ _ _, [] => none
  | joinNode _ _ l r, b :: bs => if b then leafAt r bs else leafAt l bs

/-- The leaf nodes of a tree, from left to right. -/
def leafNodes : treeNode → List treeNode
  | leafNode s f => [leafNode s f]
  | joinNode _ _ l r => leafNodes l ++ leafNodes r

/-- The leaf nodes of the trees of a list. -/
def forestLeaves : List treeNode → List treeNode
  | [] => []
  | t :: ts => leafNodes t ++ forestLeaves ts

/-- Every internal node carries the exact sum of the frequencies of its two children. -/
def exactWeights : treeNode → Prop
  | leafNode _ _ => True
  | joinNode _ f l r => f = l.frequency + r.frequency ∧ exactWeights l ∧ exactWeights r

/-- Whether a tree carries exact sums can be computed. -/
def exactWeights.decide : (t : treeNode) → Decidable (exactWeights t)
  | leafNode _ _ => isTrue trivial
  | joinNode _ f l r =>
      match Nat.decEq f (l.frequency + r.frequency), exactWeights.decide l,
        exactWeights.decide r with
      | isTrue h1, isTrue h2, isTrue h3 => isTrue ⟨h1, h2, h3⟩
      | isFalse h1, _, _ => isFalse (fun h => h1 h.1)
      | _, isFalse h2, _ => isFalse (fun h => h2 h.2.1)
      | _, _, isFalse h3 => isFalse (fun h => h3 h.2.2)

instance (t : treeNode) : Decidable (exactWeights t) := exactWeights.decide t

/-- The sum of the frequencies of the leaves of a tree. -/
def weight : treeNode → Nat
  | leafNode _ f => f
  | joinNode _ _ l r => weight l + weight r

/-- The weighted path length of a tree whose root lies at depth `d`: the sum over the
leaves of frequency times depth. -/
def costAt : Nat → treeNode → Nat
  | d, leafNode _ f => f * d
  | d, joinNode _ _ l r => costAt (d + 1) l + costAt (d + 1) r

/-- The weighted path length of a tree. -/
def cost (t : treeNode) : Nat := costAt 0 t

/-- The greedy merges that lead from the entries of the queue to the final tree: `Merges
es t j` says that `j` joins, each of the two entries of least frequency (first the lesser
as left child), turn the entries `es` into the single tree `t`. -/
inductive Merges : List treeNode → treeNode → Nat → Prop where
  | last (t : treeNode) : Merges [t] t 0
  | step (es : List treeNode) (a b : treeNode) (rest : List treeNode) (t : treeNode) (j : Nat) :
      List.Perm es (a :: b :: rest) →
      (∀ x ∈ b :: rest, a.frequency ≤ x.frequency) →
      (∀ x ∈ rest, b.frequency ≤ x.frequency) →
      Merges (rest ++ [join a b]) t j →
      Merges es t (j + 1)

/-- The height of a tree: the greatest depth of a leaf. -/
def height : treeNode → Nat
  | leafNode _ _ => 0
  | joinNode _ _ l r => max (height l) (height r) + 1

/-- The depths of the leaves of a tree whose root lies at depth `k`, from left to right. -/
def depthsAt : Nat → treeNode → List Nat
  | k, leafNode _ _ => [k]
  | k, joinNode _ _ l r => depthsAt (k + 1) l ++ depthsAt (k + 1) r

/-- The pairs (frequency, depth) of the leaves of a tree whose root lies at depth `k`. -/
def wdAt : Nat → treeNode → List (Nat × Nat)
  | k, leafNode _ f => [(f, k)]
  | k, joinNode _ _ l r => wdAt (k + 1) l ++ wdAt (k + 1) r

/-- The weighted path length of a list of pairs (weight, depth). -/
def pcost (L : List (Nat × Nat)) : Nat :=
  (L.map (fun p => p.1 * p.2)).sum

/-- A list of depths is realisable when it is, up to order, the list of the depths of the
leaves of a tree. -/
def Realisable (D : List Nat) : Prop :=
  ∃ u : treeNode, List.Perm (depthsAt 0 u) D

/-- The local variables of `rebuildTree` after `n` passes through the body of its loop;
`none` when the loop has ended, or `join` has dereferenced `NULL`, before that. -/
def rebuildRun (argsRightToLeft : Bool) (instructions : List Nat) (size : Int) :
    Nat → RebuildState → Option RebuildState
  | 0, s => some s
  | n + 1, s =>
      if (s.index : Int) < size then
        match rebuildStep argsRightToLeft instructions s with
        | some s1 => rebuildRun argsRightToLeft instructions size n s1
        | none => none
      else none

/-- The local variables of `rebuildTree` before the first pass. -/
def rebuildInit : RebuildState :=
  { index := 0, stack := newHuffStack 1000, node := none }

/-- The indices at which one pass through the body of the loop of `rebuildTree` reads
`instructions`: `instructions[index]` for the test against `'L'`; then, at an `'L'`,
`instructions[index]` after `index++`, and otherwise `instructions[index]` once more for the
test against `'J'`. -/
def stepReads (instructions : List Nat) (s : RebuildState) : List Nat :=
  if instructions.getD s.index 0 = 76 then [s.index, s.index + 1] else [s.index, s.index]

/-- The statement `x += 1` on an `int`: `none` when `x` is `INT_MAX`, where the signed
overflow is undefined in C. -/
def intIncr (x : Int) : Option Int :=
  if x < 2147483647 then some (x + 1) else none

/-- The statement `histogram[b] += 1`. -/
def histogramIncr (histogram : List Int) (b : Nat) : Option (List Int) :=
  match intIncr (histogram.getD b 0) with
  | some v => some (histogram.set b v)
  | none => none

/-- The loop of `setHistogram` over the bytes of the buffer, from the first to the last:
`histogram[currentByte] += 1` for each. -/
def countBytes : List Nat → List Int → Option (List Int)
  | [], histogram => some histogram
  | currentByte :: rest, histogram =>
      match histogramIncr histogram currentByte with
      | some h1 => countBytes rest h1
      | none => none

/-- The function `setHistogram`, with the content of the file in place of its path: the
loop over the buffer, then `histogram[0] += 1` and `histogram[255] += 1`. The counter `i`
of the loop is an `int`, so for a file of more than `INT_MAX` bytes `i++` overflows:
`none` stands for that and for an overflow of an entry. -/
def setHistogram (histogram : List Int) (content : List Nat) : Option (List Int) :=
  if content.length > 2147483647 then none
  else
    match countBytes content histogram with
    | none => none
    | some h =>
        match histogramIncr h 0 with
        | none => none
        | some h1 => histogramIncr h1 255

/-- The number of entries other than zero among the 256 entries of the histogram. -/
def nonzeroEntries (histogram : List Int) : Nat :=
  ((List.range 256).filter (fun i => decide (histogram.getD i 0 ≠ 0))).length

/-- The variables of step 5 of `main` after `j` passes through the body of its loop; `none`
when the loop has ended, or a dequeue has failed, before that. -/
def buildRun : Nat → BuildState → Option BuildState
  | 0, s => some s
  | j + 1, s =>
      if !emptyHuffPQueue s.treeQueue then
        match buildStep s with
        | some s1 => buildRun j s1
        | none => none
      else none

/-- The tree that the stack machine makes of the post-order instructions of a tree, for
either order in which the two pops of a join are evaluated: leaves with frequency 0, and at
a join the subtrees as `join` receives them. -/
def rebuiltBy (argsRightToLeft : Bool) : treeNode → treeNode
  | leafNode s _ => newNode s 0
  | joinNode _ _ l r =>
      if argsRightToLeft then join (rebuiltBy argsRightToLeft l) (rebuiltBy argsRightToLeft r)
      else join (rebuiltBy argsRightToLeft r) (rebuiltBy argsRightToLeft l)

/-! # Properties -/

theorem cstr_cons_zero (l : List Nat) : cstr (0 :: l) = [] := by
  simp [cstr]

theorem cstr_cons_pos (s : Nat) (l : List Nat) (h : s ≠ 0) : cstr (s :: l) = s :: cstr l := by
  simp [cstr, h]

/-- For leaves with nonzero symbols and a zero byte behind `symbol`, the instructions are
the reference serialisation appended to the string. -/
theorem generateTreeInstructions_eq_ser (after : List Nat) (hafter : cstr after = []) :
    ∀ (T : treeNode) (instructions : List Nat), (∀ s ∈ leafSymbols T, s ≠ 0) →
      generateTreeInstructions after T instructions = instructions ++ ser T := by
  intro T
  induction T with
  | leafNode s f =>
      intro ins h
      have hs : s ≠ 0 := h s (by simp [leafSymbols])
      simp only [generateTreeInstructions, strcat, ser, cstr_cons_pos _ _ hs, hafter,
        cstr_cons_pos 76 _ (by decide), cstr_cons_zero]
      simp
  | joinNode s f l r ihl ihr =>
      intro ins h
      have hl : ∀ s ∈ leafSymbols l, s ≠ 0 := fun s hs => h s (by simp [leafSymbols, hs])
      have hr : ∀ s ∈ leafSymbols r, s ≠ 0 := fun s hs => h s (by simp [leafSymbols, hs])
      simp only [generateTreeInstructions, strcat, ser, ihl _ hl, ihr _ hr,
        cstr_cons_pos 74 _ (by decide), cstr_cons_zero]
      simp

theorem stackOf_push (items : List treeNode) (size : Nat) (n : treeNode)
    (h : items.length < size) :
    pushHuffStack (stackOf items size) (some n) = stackOf (n :: items) size := by
  have h1 : size - items.length = (size - (items.length + 1)) + 1 := by omega
  simp only [pushHuffStack, fullHuffStack, stackOf]
  have h2 : (items.length == size) = false := by simp; omega
  simp only [h2, Bool.not_false, if_true, List.length_cons, List.reverse_cons, List.map_append,
    List.map_cons, List.map_nil, huffStack.mk.injEq, and_true]
  rw [h1, List.replicate_succ]
  rw [List.set_append_right]
  · simp
  · simp

theorem stackOf_pop (items : List treeNode) (size : Nat) (n : treeNode)
    (h : items.length < size) :
    popHuffStack (stackOf (n :: items) size) = (some n, stackOf items size) := by
  have h1 : size - items.length = (size - (items.length + 1)) + 1 := by omega
  simp only [popHuffStack, emptyHuffStack, stackOf, List.length_cons]
  have h2 : (items.length + 1 == 0) = false := by simp
  simp only [h2, Bool.not_false, if_true, Nat.add_sub_cancel, List.reverse_cons, List.map_append,
    List.map_cons, List.map_nil, Prod.mk.injEq, huffStack.mk.injEq, and_true]
  constructor
  · rw [List.append_assoc, List.getD_append_right] <;> simp
  · rw [List.append_assoc, List.set_append_right]
    · rw [h1, List.replicate_succ]; simp
    · simp


theorem getD_at (pre suf : List Nat) (x : Nat) :
    (pre ++ x :: suf).getD pre.length 0 = x := by
  rw [List.getD_append_right] <;> simp

theorem getD_at_succ (pre suf : List Nat) (x y : Nat) :
    (pre ++ x :: y :: suf).getD (pre.length + 1) 0 = y := by
  rw [List.getD_append_right] <;> simp

theorem rebuilt_frequency (T : treeNode) : (rebuilt T).frequency = 0 := by
  induction T with
  | leafNode s f => rfl
  | joinNode s f l r ihl ihr =>
      show ((rebuilt l).frequency + (rebuilt r).frequency) % 2 ^ 64 = 0
      rw [ihl, ihr]
      norm_num

theorem stackNeed_pos (T : treeNode) : 1 ≤ stackNeed T := by
  cases T <;> simp [stackNeed]

theorem rebuilt_join (l r : treeNode) :
    join (rebuilt l) (rebuilt r) = joinNode 42 0 (rebuilt l) (rebuilt r) := by
  simp [join, rebuilt_frequency]

/-- The stack machine on the instructions of a tree: it takes one pass for each node and
leaves the rebuilt tree on top of the stack. -/
theorem rebuildLoop_ser (cap : Nat) (size : Int) :
    ∀ (T : treeNode) (pre suf : List Nat) (items : List treeNode) (k : Nat)
      (nd : Option treeNode),
      items.length + stackNeed T ≤ cap →
      ((pre.length + (ser T).length : Nat) : Int) ≤ size →
      rebuildLoop true (pre ++ ser T ++ suf) size (numNodes T + k)
          { index := pre.length, stack := stackOf items cap, node := nd } =
        rebuildLoop true (pre ++ ser T ++ suf) size k
          { index := pre.length + (ser T).length, stack := stackOf (rebuilt T :: items) cap,
            node := some (rebuilt T) } := by
  intro T
  induction T with
  | leafNode s f =>
      intro pre suf items k nd hcap hsize
      simp only [stackNeed] at hcap
      simp only [ser, List.length_cons, List.length_nil] at hsize ⊢
      have hlt : ((pre.length : Nat) : Int) < size := by omega
      have e : numNodes (leafNode s f) + k = k + 1 := by simp [numNodes]; omega
      rw [e]
      simp only [rebuildLoop, hlt, if_true, rebuildStep, List.append_assoc, List.cons_append,
        List.nil_append, getD_at, getD_at_succ, rebuilt]
      rw [stackOf_push _ _ _ (by omega)]
  | joinNode s f l r ihl ihr =>
      intro pre suf items k nd hcap hsize
      simp only [stackNeed] at hcap
      have hposl := stackNeed_pos l
      have hposr := stackNeed_pos r
      simp only [ser, List.length_append, List.length_cons, List.length_nil] at hsize ⊢
      have e : numNodes (joinNode s f l r) + k = numNodes l + (numNodes r + (k + 1)) := by
        simp [numNodes]; omega
      rw [e]
      have h1 := ihl pre (ser r ++ [74] ++ suf) items (numNodes r + (k + 1)) nd
        (by omega) (by omega)
      have e1 : pre ++ (ser l ++ ser r ++ [74]) ++ suf = pre ++ ser l ++ (ser r ++ [74] ++ suf) := by
        simp
      rw [e1, h1]
      have h2 := ihr (pre ++ ser l) ([74] ++ suf) (rebuilt l :: items) (k + 1)
        (some (rebuilt l)) (by simp; omega) (by simp; omega)
      have e2 : pre ++ ser l ++ (ser r ++ [74] ++ suf) = pre ++ ser l ++ ser r ++ ([74] ++ suf) := by
        simp
      simp only [List.length_append] at h2
      rw [e2, h2]
      have hlt : ((pre.length + (ser l).length + (ser r).length : Nat) : Int) < size := by omega
      have e3 : pre ++ ser l ++ ser r ++ ([74] ++ suf) = (pre ++ ser l ++ ser r) ++ 74 :: suf := by
        simp
      have hg : (pre ++ ser l ++ ser r ++ ([74] ++ suf)).getD
          (pre.length + (ser l).length + (ser r).length) 0 = 74 := by
        rw [e3]
        have := getD_at (pre ++ ser l ++ ser r) suf 74
        simpa only [List.length_append] using this
      simp only [rebuildLoop, hlt, if_true, rebuildStep, hg]
      simp only [joinPopped]
      rw [stackOf_pop _ _ _ (by simp; omega), stackOf_pop _ _ _ (by omega)]
      simp only [if_true, Nat.reduceEqDiff, if_false]
      rw [stackOf_push _ _ _ (by omega)]
      simp only [rebuilt]
      congr 2
      omega


theorem newHuffStack_eq (n : Nat) : newHuffStack n = stackOf [] n := by
  simp [newHuffStack, stackOf]

theorem sameShape_rebuilt (T : treeNode) : sameShape (rebuilt T) T = true := by
  induction T with
  | leafNode s f => simp [rebuilt, newNode, sameShape]
  | joinNode s f l r ihl ihr => simp [rebuilt, join, sameShape, ihl, ihr]

theorem rebuildLoop_done (rtl : Bool) (instructions : List Nat) (size : Int) (k : Nat)
    (s : RebuildState) (h : ¬ (s.index : Int) < size) :
    rebuildLoop rtl instructions size k s = .returned s.node := by
  cases k <;> simp [rebuildLoop, h]

/-- The stack machine gives back the tree of the reference serialisation. -/
theorem rebuildTree_ser (T : treeNode) (fuel : Nat) (hneed : stackNeed T ≤ 1000)
    (hfuel : numNodes T ≤ fuel) :
    rebuildTree true fuel (ser T) (ser T).length = .returned (some (rebuilt T)) := by
  obtain ⟨k, rfl⟩ : ∃ k, fuel = numNodes T + k := ⟨fuel - numNodes T, by omega⟩
  have h := rebuildLoop_ser 1000 (ser T).length T [] [] [] k none (by simpa using hneed)
    (by simp)
  simp only [List.nil_append, List.append_nil, List.length_nil, Nat.zero_add] at h
  rw [rebuildTree, newHuffStack_eq, h, rebuildLoop_done]
  simp

/-! ## Runs of the stack machine that do not return the tree -/

theorem rebuildLoop_mono (rtl : Bool) (instructions : List Nat) (size : Int) :
    ∀ (fuel k : Nat) (s : RebuildState),
      rebuildLoop rtl instructions size fuel s ≠ .outOfFuel →
      rebuildLoop rtl instructions size (fuel + k) s =
        rebuildLoop rtl instructions size fuel s := by
  intro fuel
  induction fuel with
  | zero =>
      intro k s h
      by_cases hlt : (s.index : Int) < size
      · simp [rebuildLoop, hlt] at h
      · rw [rebuildLoop_done _ _ _ _ _ hlt, rebuildLoop_done _ _ _ _ _ hlt]
  | succ fuel ih =>
      intro k s h
      have e : fuel + 1 + k = (fuel + k) + 1 := by omega
      rw [e]
      by_cases hlt : (s.index : Int) < size
      · simp only [rebuildLoop, hlt, if_true] at h ⊢
        cases hstep : rebuildStep rtl instructions s with
        | none => rfl
        | some s1 =>
            simp only [hstep] at h ⊢
            exact ih k s1 h
      · simp [rebuildLoop, hlt]

/-- A result other than running out of fuel does not depend on the fuel. -/
theorem rebuildLoop_fuel_irrelevant (rtl : Bool) (instructions : List Nat) (size : Int)
    (f1 f2 : Nat) (s : RebuildState)
    (h1 : rebuildLoop rtl instructions size f1 s ≠ .outOfFuel)
    (h2 : rebuildLoop rtl instructions size f2 s ≠ .outOfFuel) :
    rebuildLoop rtl instructions size f1 s = rebuildLoop rtl instructions size f2 s := by
  rcases Nat.le_total f1 f2 with h | h
  · obtain ⟨k, rfl⟩ := Nat.exists_eq_add_of_le h
    exact (rebuildLoop_mono rtl instructions size f1 k s h1).symm
  · obtain ⟨k, rfl⟩ := Nat.exists_eq_add_of_le h
    exact rebuildLoop_mono rtl instructions size f2 k s h2

/-- At a byte that is neither `'L'` nor `'J'` the loop makes no progress. -/
theorem rebuildLoop_stuck (rtl : Bool) (instructions : List Nat) (size : Int)
    (s : RebuildState) (hlt : (s.index : Int) < size)
    (hL : instructions.getD s.index 0 ≠ 76) (hJ : instructions.getD s.index 0 ≠ 74) :
    ∀ fuel, rebuildLoop rtl instructions size fuel s = .outOfFuel := by
  intro fuel
  induction fuel with
  | zero => simp [rebuildLoop, hlt]
  | succ fuel ih => simp only [rebuildLoop, hlt, if_true, rebuildStep, if_neg hL, if_neg hJ, ih]

theorem stackOf_push_full (items : List treeNode) (n : Option treeNode) :
    pushHuffStack (stackOf items items.length) n = stackOf items items.length := by
  simp [pushHuffStack, fullHuffStack, stackOf]

theorem stackOf_pop_nil (size : Nat) :
    popHuffStack (stackOf [] size) = (none, stackOf [] size) := by
  simp [popHuffStack, emptyHuffStack, stackOf]

theorem ser_comb (n : Nat) : ser (comb n) = leafRun (n + 1) ++ List.replicate n 74 := by
  induction n with
  | zero => rfl
  | succ n ih =>
      simp only [comb, ser, ih, leafRun, List.replicate_succ']
      simp

theorem leafSymbols_comb (n : Nat) : ∀ s ∈ leafSymbols (comb n), s ≠ 0 := by
  induction n with
  | zero => simp [comb, leafSymbols]
  | succ n ih =>
      intro s hs
      simp only [comb, leafSymbols, List.mem_append, List.mem_singleton] at hs
      rcases hs with h | h
      · omega
      · exact ih s h

theorem length_leafRun (m : Nat) : (leafRun m).length = 2 * m := by
  induction m with
  | zero => rfl
  | succ m ih => simp [leafRun, ih]; omega

/-- The run over `m` leaf tokens pushes `m` leaves while the stack has room. -/
theorem rebuildLoop_leafRun (cap : Nat) (size : Int) :
    ∀ (m : Nat) (pre suf : List Nat) (items : List treeNode) (k : Nat) (nd : Option treeNode),
      items.length + m ≤ cap →
      ((pre.length + 2 * m : Nat) : Int) ≤ size →
      ∃ (items1 : List treeNode) (nd1 : Option treeNode),
        items1.length = items.length + m ∧
        rebuildLoop true (pre ++ leafRun m ++ suf) size (m + k)
            { index := pre.length, stack := stackOf items cap, node := nd } =
          rebuildLoop true (pre ++ leafRun m ++ suf) size k
            { index := pre.length + 2 * m, stack := stackOf items1 cap, node := nd1 } := by
  intro m
  induction m with
  | zero =>
      intro pre suf items k nd _ _
      exact ⟨items, nd, by simp, by simp⟩
  | succ m ih =>
      intro pre suf items k nd hcap hsize
      have h1 := rebuildLoop_ser cap size (leafNode 97 0) pre (leafRun m ++ suf) items (m + k) nd
        (by simp [stackNeed]; omega) (by simp [ser]; omega)
      obtain ⟨items1, nd1, hlen, h2⟩ := ih (pre ++ [76, 97]) suf
        (rebuilt (leafNode 97 0) :: items) k (some (rebuilt (leafNode 97 0)))
        (by simp; omega) (by simp; omega)
      refine ⟨items1, nd1, by simp at hlen; omega, ?_⟩
      have e : m + 1 + k = numNodes (leafNode 97 0) + (m + k) := by simp [numNodes]; omega
      have e1 : pre ++ leafRun (m + 1) ++ suf = pre ++ ser (leafNode 97 0) ++ (leafRun m ++ suf) := by
        simp [leafRun, ser]
      have e2 : pre ++ [76, 97] ++ leafRun m ++ suf = pre ++ leafRun (m + 1) ++ suf := by
        simp [leafRun]
      rw [e, e1, h1, ← e1, ← e2]
      simp only [ser, List.length_cons, List.length_nil, List.length_append] at h2 ⊢
      have e3 : pre.length + (0 + 1 + 1) + 2 * m = pre.length + 2 * (m + 1) := by omega
      rw [e3] at h2
      exact h2

/-- A run of join tokens that is one longer than the stack can serve ends in a `NULL`
dereference. -/
theorem rebuildLoop_joinRun (cap : Nat) (size : Int) :
    ∀ (j : Nat) (pre suf : List Nat) (items : List treeNode) (k : Nat) (nd : Option treeNode),
      items.length = j + 1 → items.length ≤ cap →
      ((pre.length + j + 1 : Nat) : Int) ≤ size →
      rebuildLoop true (pre ++ List.replicate (j + 1) 74 ++ suf) size (j + 1 + k)
          { index := pre.length, stack := stackOf items cap, node := nd } =
        .nullDereference := by
  intro j
  induction j with
  | zero =>
      intro pre suf items k nd hlen hcap hsize
      obtain ⟨x, rfl⟩ : ∃ x, items = [x] := by
        match items, hlen with
        | [x], _ => exact ⟨x, rfl⟩
      have hlt : ((pre.length : Nat) : Int) < size := by omega
      have e : 0 + 1 + k = k + 1 := by omega
      have hg : (pre ++ List.replicate (0 + 1) 74 ++ suf).getD pre.length 0 = 74 := by
        simpa using getD_at pre suf 74
      rw [e]
      simp only [rebuildLoop, hlt, if_true, rebuildStep, hg, joinPopped]
      rw [stackOf_pop _ _ _ (by simpa using hcap), stackOf_pop_nil]
      simp
  | succ j ih =>
      intro pre suf items k nd hlen hcap hsize
      obtain ⟨b, a, rest, rfl⟩ : ∃ b a rest, items = b :: a :: rest := by
        match items, hlen with
        | b :: a :: rest, _ => exact ⟨b, a, rest, rfl⟩
      simp only [List.length_cons] at hlen hcap
      have hlt : ((pre.length : Nat) : Int) < size := by omega
      have e : j + 1 + 1 + k = (j + 1 + k) + 1 := by omega
      have hg : (pre ++ List.replicate (j + 1 + 1) 74 ++ suf).getD pre.length 0 = 74 := by
        have := getD_at pre (List.replicate (j + 1) 74 ++ suf) 74
        simpa [List.replicate_succ] using this
      rw [e]
      simp only [rebuildLoop, hlt, if_true, rebuildStep, hg, joinPopped]
      rw [stackOf_pop _ _ _ (by simp; omega), stackOf_pop _ _ _ (by omega)]
      simp only [if_true, if_false]
      rw [stackOf_push rest cap (join a b) (by omega)]
      have h := ih (pre ++ [74]) suf (join a b :: rest) k (some (join a b))
        (by simp; omega) (by simp; omega) (by simp; omega)
      have e2 : pre ++ [74] ++ List.replicate (j + 1) 74 ++ suf =
          pre ++ List.replicate (j + 1 + 1) 74 ++ suf := by
        simp [List.replicate_succ]
      rw [e2] at h
      simpa using h

theorem leafRun_succ_end (m : Nat) : leafRun (m + 1) = leafRun m ++ [76, 97] := by
  induction m with
  | zero => rfl
  | succ m ih =>
      show 76 :: 97 :: leafRun (m + 1) = (76 :: 97 :: leafRun m) ++ [76, 97]
      rw [ih]
      rfl

/-- On a stack of `n` slots the instructions of the comb of `n + 1` leaves end in a `NULL`
dereference: the last leaf is not pushed, and the last join finds one node only. -/
theorem rebuildLoop_comb (n k : Nat) (hn : 1 ≤ n) (size : Int)
    (hsize : size = ((3 * n + 2 : Nat) : Int)) :
    rebuildLoop true (leafRun n ++ ([76, 97] ++ List.replicate n 74)) size (2 * n + 1 + k)
        { index := 0, stack := stackOf [] n, node := none } = .nullDereference := by
  obtain ⟨items1, nd1, hl1, h1⟩ := rebuildLoop_leafRun n size n []
    ([76, 97] ++ List.replicate n 74) [] (n + 1 + k) none (by simp) (by simp [hsize]; omega)
  simp only [List.nil_append, List.length_nil, Nat.zero_add] at h1 hl1
  have e : 2 * n + 1 + k = n + (n + 1 + k) := by omega
  rw [e, h1]
  have hlt : ((2 * n : Nat) : Int) < size := by omega
  have e2 : n + 1 + k = (n + k) + 1 := by omega
  have hg0 : (leafRun n ++ ([76, 97] ++ List.replicate n 74)).getD (2 * n) 0 = 76 := by
    have := getD_at (leafRun n) (97 :: List.replicate n 74) 76
    simpa [length_leafRun] using this
  rw [e2]
  simp only [rebuildLoop, hlt, if_true, rebuildStep, hg0]
  have hfull : ∀ x, pushHuffStack (stackOf items1 n) x = stackOf items1 n := by
    intro x
    have := stackOf_push_full items1 x
    rw [hl1] at this
    exact this
  rw [hfull]
  obtain ⟨j, rfl⟩ : ∃ j, n = j + 1 := ⟨n - 1, by omega⟩
  have h3 := rebuildLoop_joinRun (j + 1) size j (leafRun (j + 1 + 1)) []
    items1 k
    (some (newNode ((leafRun (j + 1) ++ ([76, 97] ++ List.replicate (j + 1) 74)).getD
      (2 * (j + 1) + 1) 0) 0))
    hl1 (by omega) (by simp [length_leafRun, hsize]; omega)
  have e3 : leafRun (j + 1 + 1) ++ List.replicate (j + 1) 74 ++ [] =
      leafRun (j + 1) ++ ([76, 97] ++ List.replicate (j + 1) 74) := by
    rw [leafRun_succ_end (j + 1)]; simp
  have e4 : (leafRun (j + 1 + 1)).length = 2 * (j + 1) + 2 := by
    rw [length_leafRun]; omega
  rw [e3, e4] at h3
  exact h3

theorem ser_comb_split (n : Nat) :
    ser (comb n) = leafRun n ++ ([76, 97] ++ List.replicate n 74) := by
  rw [ser_comb, leafRun_succ_end]; simp

theorem length_ser_comb (n : Nat) :
    (leafRun n ++ ([76, 97] ++ List.replicate n 74)).length = 3 * n + 2 := by
  simp [length_leafRun]; omega

theorem rebuildLoop_ser_comb (n k : Nat) (hn : 1 ≤ n) :
    rebuildLoop true (ser (comb n)) (ser (comb n)).length (2 * n + 1 + k)
        { index := 0, stack := stackOf [] n, node := none } = .nullDereference := by
  rw [ser_comb_split n]
  exact rebuildLoop_comb n k hn _ (by rw [length_ser_comb])

theorem rebuildTree_comb_overflow (k : Nat) :
    rebuildTree true (2001 + k) (generateTreeInstructions [0] (comb 1000) [])
        (generateTreeInstructions [0] (comb 1000) []).length = .nullDereference := by
  rw [generateTreeInstructions_eq_ser [0] rfl _ _ (leafSymbols_comb 1000), List.nil_append,
    rebuildTree, newHuffStack_eq]
  exact rebuildLoop_ser_comb 1000 k (by norm_num)

/-! ## C1: the round trip through the instruction string -/

theorem generate_zero_first (after : List Nat) (f0 f1 f2 : Nat) (instructions : List Nat) :
    generateTreeInstructions after (joinNode 42 f0 (leafNode 0 f1) (leafNode 65 f2)) instructions =
      instructions ++ 76 :: 76 :: 65 :: (cstr after ++ [74]) := by
  simp only [generateTreeInstructions, strcat, cstr_cons_zero, cstr_cons_pos 76 _ (by decide),
    cstr_cons_pos 65 _ (by decide), cstr_cons_pos 74 _ (by decide)]
  simp

/-- C1 (as amended): for every tree whose leaf symbols are all nonzero and whose
instructions need at most 1000 stack slots, when the byte behind `symbol` in a leaf is zero
and the second argument of `join` is evaluated first, `rebuildTree` on the string that
`generateTreeInstructions` appends to the empty string, with `size` the length of that
string, returns (given one pass of fuel for each node) a tree structurally identical to the
original: same shape, same symbol at every leaf. -/
theorem rebuildTree_generateTreeInstructions (after : List Nat) (T : treeNode) (fuel : Nat)
    (hafter : cstr after = []) (hsym : ∀ s ∈ leafSymbols T, s ≠ 0)
    (hneed : stackNeed T ≤ 1000) (hfuel : numNodes T ≤ fuel) :
    ∃ T1, rebuildTree true fuel (generateTreeInstructions after T [])
        (generateTreeInstructions after T []).length = .returned (some T1) ∧
      sameShape T1 T = true := by
  refine ⟨rebuilt T, ?_, sameShape_rebuilt T⟩
  rw [generateTreeInstructions_eq_ser after hafter T [] hsym, List.nil_append]
  exact rebuildTree_ser T fuel hneed hfuel

/-- C1 (witness): the amended round trip at the tree with leaves `'A'` and `'B'`. -/
theorem rebuildTree_generateTreeInstructions_witness :
    ∃ T1, rebuildTree true 3
        (generateTreeInstructions [0] (joinNode 42 8 (leafNode 65 3) (leafNode 66 5)) [])
        (generateTreeInstructions [0] (joinNode 42 8 (leafNode 65 3) (leafNode 66 5)) []).length =
          .returned (some T1) ∧
      sameShape T1 (joinNode 42 8 (leafNode 65 3) (leafNode 66 5)) = true :=
  rebuildTree_generateTreeInstructions [0] (joinNode 42 8 (leafNode 65 3) (leafNode 66 5)) 3
    (by decide) (by decide) (by decide) (by decide)

/-- C1 (counterexample): the round trip fails (1) at the tree with leaves 0 and `'A'`,
whose instructions are `"LLAJ"`: the loop never passes the byte `'A'`, whatever lies behind
`symbol` and in whatever order the arguments of `join` are evaluated; (2) at the comb of
1001 leaves, whose last leaf the full stack drops, so that the last join dereferences
`NULL`; (3) at the tree with leaves `'a'` and `'b'` when the first argument of `join` is
evaluated first: the tree comes back mirrored; (4) at a single leaf `'a'` when the byte
behind `symbol` is 1: the loop never passes that byte. -/
theorem rebuildTree_generateTreeInstructions_counterexample :
    (∀ (after : List Nat) (rtl : Bool) (fuel : Nat),
      rebuildTree rtl fuel
        (generateTreeInstructions after (joinNode 42 0 (leafNode 0 0) (leafNode 65 0)) [])
        (generateTreeInstructions after (joinNode 42 0 (leafNode 0 0) (leafNode 65 0)) []).length
        = .outOfFuel) ∧
    (∀ k : Nat,
      rebuildTree true (2001 + k) (generateTreeInstructions [0] (comb 1000) [])
        (generateTreeInstructions [0] (comb 1000) []).length = .nullDereference) ∧
    (∀ k : Nat,
      rebuildTree false (3 + k)
        (generateTreeInstructions [0] (joinNode 42 0 (leafNode 97 0) (leafNode 98 0)) [])
        (generateTreeInstructions [0] (joinNode 42 0 (leafNode 97 0) (leafNode 98 0)) []).length
        = .returned (some (joinNode 42 0 (leafNode 98 0) (leafNode 97 0)))) ∧
    sameShape (joinNode 42 0 (leafNode 98 0) (leafNode 97 0))
      (joinNode 42 0 (leafNode 97 0) (leafNode 98 0)) = false ∧
    (∀ fuel : Nat,
      rebuildTree true fuel (generateTreeInstructions [1] (leafNode 97 0) [])
        (generateTreeInstructions [1] (leafNode 97 0) []).length = .outOfFuel) := by
  refine ⟨?_, rebuildTree_comb_overflow, ?_, by decide, ?_⟩
  · intro after rtl fuel
    rw [generate_zero_first, List.nil_append]
    cases fuel with
    | zero => simp [rebuildTree, rebuildLoop]; omega
    | succ fuel =>
        have hlt : ((0 : Nat) : Int) <
            ((76 :: 76 :: 65 :: (cstr after ++ [74])).length : Int) := by
          simp; omega
        simp only [rebuildTree, rebuildLoop, hlt, if_true, rebuildStep, List.getD_cons_zero]
        apply rebuildLoop_stuck
        · simp; omega
        · simp
        · simp
  · intro k
    have h : rebuildTree false 3
        (generateTreeInstructions [0] (joinNode 42 0 (leafNode 97 0) (leafNode 98 0)) [])
        (generateTreeInstructions [0] (joinNode 42 0 (leafNode 97 0) (leafNode 98 0)) []).length
        = .returned (some (joinNode 42 0 (leafNode 98 0) (leafNode 97 0))) := by decide
    unfold rebuildTree at h ⊢
    rw [rebuildLoop_mono _ _ _ 3 k _ (by rw [h]; simp), h]
  · intro fuel
    have e : generateTreeInstructions [1] (leafNode 97 0) [] = [76, 97, 1] := by decide
    rw [e]
    cases fuel with
    | zero => simp [rebuildTree, rebuildLoop]
    | succ fuel =>
        have hlt : ((0 : Nat) : Int) < (([76, 97, 1] : List Nat).length : Int) := by simp
        simp only [rebuildTree, rebuildLoop, hlt, if_true, rebuildStep, List.getD_cons_zero]
        apply rebuildLoop_stuck
        · simp
        · simp
        · simp

/-! ## C5, C6: the bytes and tokens of the instruction string -/

/-- C5 (the code at the failing input): for the tree with a left leaf of symbol 0 and a
right leaf of symbol `'A'`, whatever lies behind `symbol`, `generateTreeInstructions`
appends `'L'`, `'L'`, `'A'`, the bytes behind the symbol `'A'` up to the first zero, and
`'J'`: the symbol byte 0 of the left leaf is missing, and the appended bytes are not the
reference serialisation `['L', 0, 'L', 'A', 'J']`. -/
theorem serialisation_drops_zero_symbol (after : List Nat) (f0 f1 f2 : Nat)
    (instructions : List Nat) :
    generateTreeInstructions after (joinNode 42 f0 (leafNode 0 f1) (leafNode 65 f2)) instructions =
        instructions ++ 76 :: 76 :: 65 :: (cstr after ++ [74]) ∧
      ser (joinNode 42 f0 (leafNode 0 f1) (leafNode 65 f2)) = [76, 0, 76, 65, 74] ∧
      generateTreeInstructions after (joinNode 42 f0 (leafNode 0 f1) (leafNode 65 f2)) instructions ≠
        instructions ++ ser (joinNode 42 f0 (leafNode 0 f1) (leafNode 65 f2)) := by
  refine ⟨generate_zero_first after f0 f1 f2 instructions, rfl, ?_⟩
  rw [generate_zero_first]
  simp [ser]

theorem tokenBytes_append (a b : List Token) :
    tokenBytes (a ++ b) = tokenBytes a ++ tokenBytes b := by
  induction a with
  | nil => rfl
  | cons t ts ih => simp [tokenBytes, ih]

/-- The bytes of the reference serialisation are those of the tokens of the tree. -/
theorem ser_eq_tokenBytes (T : treeNode) : ser T = tokenBytes (tokensOf T) := by
  induction T with
  | leafNode s f => rfl
  | joinNode s f l r ihl ihr =>
      simp [ser, tokensOf, tokenBytes_append, ihl, ihr, tokenBytes, Token.bytes]

/-- A tree of `L` leaves has `2L - 1` tokens: `L` leaf tokens and `L - 1` join tokens. -/
theorem tokensOf_count (T : treeNode) :
    (tokensOf T).length + 1 = 2 * numLeaves T ∧
      (tokensOf T).countP Token.isLeaf = numLeaves T ∧
      (tokensOf T).countP Token.isJoin + 1 = numLeaves T := by
  induction T with
  | leafNode s f => simp [tokensOf, numLeaves, Token.isLeaf, Token.isJoin]
  | joinNode s f l r ihl ihr =>
      simp only [tokensOf, numLeaves, List.length_append, List.countP_append,
        List.length_cons, List.length_nil, List.countP_cons, List.countP_nil, Token.isLeaf,
        Token.isJoin]
      simp
      omega

/-- C6 (the code at the failing input): for the tree with a left leaf of symbol 0 and a
right leaf of symbol `'A'` (2 leaves, so 3 tokens by the law), the emitted string starts
`'L'`, `'L'`, `'A'`: it is not the bytes of any sequence of leaf tokens (`'L'` and a symbol
byte) and join tokens (`'J'`), since the first leaf token lacks its symbol byte. -/
theorem token_law_fails_at_zero_symbol (after : List Nat) (f0 f1 f2 : Nat) :
    generateTreeInstructions after (joinNode 42 f0 (leafNode 0 f1) (leafNode 65 f2)) [] =
        76 :: 76 :: 65 :: (cstr after ++ [74]) ∧
      numLeaves (joinNode 42 f0 (leafNode 0 f1) (leafNode 65 f2)) = 2 ∧
      ∀ toks : List Token, tokenBytes toks ≠ 76 :: 76 :: 65 :: (cstr after ++ [74]) := by
  refine ⟨by simpa using generate_zero_first after f0 f1 f2 [], rfl, ?_⟩
  intro toks
  match toks with
  | [] => simp [tokenBytes]
  | .joinTok :: rest => simp [tokenBytes, Token.bytes]
  | [.leafTok s] => simp [tokenBytes, Token.bytes]
  | .leafTok s :: .leafTok s1 :: rest => simp [tokenBytes, Token.bytes]
  | .leafTok s :: .joinTok :: rest => simp [tokenBytes, Token.bytes]

/-! ## C2, C9: the code table -/

theorem removeBitFromEnd_appendBit (v : bitV) (b : Bool) :
    removeBitFromEnd (appendBit v b) = v := by
  simp [removeBitFromEnd, appendBit]

theorem leafAt_mem (T : treeNode) :
    ∀ (path : List Bool) (s : Nat), leafAt T path = some s → s ∈ leafSymbols T := by
  induction T with
  | leafNode s0 f =>
      intro path s h
      cases path with
      | nil => simp [leafAt] at h; simp [leafSymbols, h]
      | cons b bs => simp [leafAt] at h
  | joinNode s0 f l r ihl ihr =>
      intro path s h
      cases path with
      | nil => simp [leafAt] at h
      | cons b bs =>
          cases b with
          | false =>
              simp only [leafAt, Bool.false_eq_true, if_false] at h
              simp [leafSymbols, ihl bs s h]
          | true =>
              simp only [leafAt, if_true] at h
              simp [leafSymbols, ihr bs s h]

theorem mem_leafSymbols_leafAt (T : treeNode) :
    ∀ s ∈ leafSymbols T, ∃ path, leafAt T path = some s := by
  induction T with
  | leafNode s0 f =>
      intro s h
      simp only [leafSymbols, List.mem_singleton] at h
      exact ⟨[], by simp [leafAt, h]⟩
  | joinNode s0 f l r ihl ihr =>
      intro s h
      simp only [leafSymbols, List.mem_append] at h
      rcases h with h | h
      · obtain ⟨p, hp⟩ := ihl s h
        exact ⟨false :: p, by simpa [leafAt] using hp⟩
      · obtain ⟨p, hp⟩ := ihr s h
        exact ⟨true :: p, by simpa [leafAt] using hp⟩

/-- A symbol that is not at a leaf keeps its entry. -/
theorem assignCodes_not_mem (T : treeNode) :
    ∀ (codes : CodeTable) (cur : bitV) (s : Nat), s ∉ leafSymbols T →
      assignCodes T codes cur s = codes s := by
  induction T with
  | leafNode s0 f =>
      intro codes cur s h
      simp only [leafSymbols, List.mem_singleton] at h
      simp [assignCodes, setCode, h]
  | joinNode s0 f l r ihl ihr =>
      intro codes cur s h
      simp only [leafSymbols, List.mem_append, not_or] at h
      simp only [assignCodes]
      rw [ihr _ _ _ h.2, ihl _ _ _ h.1]

/-- With pairwise distinct leaf symbols, the entry of the symbol of a leaf is the code on
entry followed by the turns that lead to the leaf. -/
theorem assignCodes_leafAt (T : treeNode) :
    ∀ (codes : CodeTable) (cur : bitV), (leafSymbols T).Nodup →
      ∀ (path : List Bool) (s : Nat), leafAt T path = some s →
        assignCodes T codes cur s = some (cur ++ path) := by
  induction T with
  | leafNode s0 f =>
      intro codes cur _ path s h
      cases path with
      | nil =>
          simp only [leafAt, Option.some.injEq] at h
          simp [assignCodes, setCode, h, appendCode, newBitVector]
      | cons b bs => simp [leafAt] at h
  | joinNode s0 f l r ihl ihr =>
      intro codes cur hnd path s h
      simp only [leafSymbols] at hnd
      have hndl := (List.nodup_append.mp hnd).1
      have hndr := (List.nodup_append.mp hnd).2.1
      have hdis := (List.nodup_append.mp hnd).2.2
      cases path with
      | nil => simp [leafAt] at h
      | cons b bs =>
          simp only [assignCodes, removeBitFromEnd_appendBit]
          cases b with
          | false =>
              simp only [leafAt, Bool.false_eq_true, if_false] at h
              have hl := leafAt_mem l bs s h
              have hr : s ∉ leafSymbols r := fun hr => hdis hl hr
              rw [assignCodes_not_mem r _ _ s hr, ihl _ _ hndl bs s h]
              simp [appendBit]
          | true =>
              simp only [leafAt, if_true] at h
              rw [ihr _ _ hndr bs s h]
              simp [appendBit]

/-- Two paths one of which is a prefix of the other lead to the same leaf only when they
are equal; a path that continues below a leaf leads nowhere. -/
theorem leafAt_extension (T : treeNode) :
    ∀ (p q : List Bool) (a b : Nat), leafAt T p = some a → leafAt T (p ++ q) = some b →
      a = b := by
  induction T with
  | leafNode s0 f =>
      intro p q a b ha hb
      cases p with
      | nil =>
          cases q with
          | nil => simp [leafAt] at ha hb; omega
          | cons c cs => simp [leafAt] at hb
      | cons c cs => simp [leafAt] at ha
  | joinNode s0 f l r ihl ihr =>
      intro p q a b ha hb
      cases p with
      | nil => simp [leafAt] at ha
      | cons c cs =>
          cases c with
          | false =>
              simp only [leafAt, List.cons_append, Bool.false_eq_true, if_false] at ha hb
              exact ihl cs q a b ha hb
          | true =>
              simp only [leafAt, List.cons_append, if_true] at ha hb
              exact ihr cs q a b ha hb

/-- C9: for every tree with pairwise distinct leaf symbols, after
`assignCodes(root, codes, empty code)` on the all-absent table the entry of each leaf's
symbol is the sequence of turns from the root to that leaf (bit 0 to the left, bit 1 to the
right), and the entry of every symbol that is not at a leaf is still absent. -/
theorem assignCodes_paths (T : treeNode) (hnd : (leafSymbols T).Nodup) :
    (∀ (path : List Bool) (s : Nat), leafAt T path = some s →
        assignCodes T emptyCodes (newBitVector 8) s = some path) ∧
      (∀ s : Nat, s ∉ leafSymbols T → assignCodes T emptyCodes (newBitVector 8) s = none) := by
  constructor
  · intro path s h
    have := assignCodes_leafAt T emptyCodes (newBitVector 8) hnd path s h
    simpa [newBitVector] using this
  · intro s h
    rw [assignCodes_not_mem T _ _ s h]
    rfl

/-- C9 (witness): the codes of the tree with leaves `'Z'`, `'Y'` below a join and `'X'`. -/
theorem assignCodes_paths_witness :
    (∀ (path : List Bool) (s : Nat),
        leafAt (joinNode 42 8 (joinNode 42 3 (leafNode 90 1) (leafNode 89 2)) (leafNode 88 5))
          path = some s →
        assignCodes (joinNode 42 8 (joinNode 42 3 (leafNode 90 1) (leafNode 89 2)) (leafNode 88 5))
          emptyCodes (newBitVector 8) s = some path) ∧
      (∀ s : Nat,
        s ∉ leafSymbols
          (joinNode 42 8 (joinNode 42 3 (leafNode 90 1) (leafNode 89 2)) (leafNode 88 5)) →
        assignCodes (joinNode 42 8 (joinNode 42 3 (leafNode 90 1) (leafNode 89 2)) (leafNode 88 5))
          emptyCodes (newBitVector 8) s = none) :=
  assignCodes_paths (joinNode 42 8 (joinNode 42 3 (leafNode 90 1) (leafNode 89 2)) (leafNode 88 5))
    (by decide)

/-- C2: for every tree whose leaves carry pairwise distinct symbols, after
`assignCodes(root, codes, empty code)` on the all-absent table, the codes of two distinct
symbols that have an entry are not prefixes of each other. -/
theorem assignCodes_prefix_free (T : treeNode) (hnd : (leafSymbols T).Nodup)
    (a b : Nat) (ca cb : bitV) (hab : a ≠ b)
    (ha : assignCodes T emptyCodes (newBitVector 8) a = some ca)
    (hb : assignCodes T emptyCodes (newBitVector 8) b = some cb) :
    ¬ ca <+: cb ∧ ¬ cb <+: ca := by
  have key : ∀ (x : Nat) (cx : bitV), assignCodes T emptyCodes (newBitVector 8) x = some cx →
      leafAt T cx = some x := by
    intro x cx hx
    by_cases hmem : x ∈ leafSymbols T
    · obtain ⟨p, hp⟩ := mem_leafSymbols_leafAt T x hmem
      have := assignCodes_leafAt T emptyCodes (newBitVector 8) hnd p x hp
      rw [hx] at this
      simp only [newBitVector, List.nil_append, Option.some.injEq] at this
      rw [this]; exact hp
    · have := assignCodes_not_mem T emptyCodes (newBitVector 8) x hmem
      rw [hx] at this
      simp [emptyCodes] at this
  have hpa := key a ca ha
  have hpb := key b cb hb
  constructor
  · rintro ⟨q, rfl⟩
    exact hab (leafAt_extension T ca q a b hpa hpb)
  · rintro ⟨q, rfl⟩
    exact hab (leafAt_extension T cb q b a hpb hpa).symm

/-- C2 (witness): the codes of `'Z'` and `'X'` in the tree with leaves `'Z'`, `'Y'` below a
join and `'X'`. -/
theorem assignCodes_prefix_free_witness :
    assignCodes (joinNode 42 8 (joinNode 42 3 (leafNode 90 1) (leafNode 89 2)) (leafNode 88 5))
        emptyCodes (newBitVector 8) 90 = some [false, false] ∧
      assignCodes (joinNode 42 8 (joinNode 42 3 (leafNode 90 1) (leafNode 89 2)) (leafNode 88 5))
        emptyCodes (newBitVector 8) 88 = some [true] ∧
      (¬ [false, false] <+: [true] ∧ ¬ [true] <+: [false, false]) :=
  ⟨by decide, by decide,
    assignCodes_prefix_free
      (joinNode 42 8 (joinNode 42 3 (leafNode 90 1) (leafNode 89 2)) (leafNode 88 5))
      (by decide) 90 88 [false, false] [true] (by decide) (by decide) (by decide)⟩

/-! ## C7, C10: a single leaf, and the leaves X:5, Y:2, Z:1 -/

/-- C7 (as amended): when the queue is seeded with exactly one leaf, the build loop
performs no join and returns that leaf as the tree with the queue empty, and `assignCodes`
on it stores for the symbol of the leaf the empty code, of length 0. -/
theorem buildTree_single_leaf (s f cap fuel : Nat) (hcap : 1 ≤ cap) (hfuel : 1 ≤ fuel) :
    buildTree fuel cap [newNode s f] =
        some { treeQueue := { capacity := cap, entries := [] },
               huffmanTree := some (newNode s f), joins := 0 } ∧
      assignCodes (newNode s f) emptyCodes (newBitVector 8) s = some [] := by
  constructor
  · obtain ⟨k, rfl⟩ : ∃ k, fuel = k + 1 := ⟨fuel - 1, by omega⟩
    have hc : 0 < cap := hcap
    cases k <;>
      simp [buildTree, seedQueue, newHuffPQueue, enqueueHuffPQueue, hc, buildLoop,
        emptyHuffPQueue, buildStep, dequeueHuffPQueue, removeMin]
  · simp [newNode, assignCodes, setCode, appendCode, newBitVector]

/-- C7 (witness): the amended claim at the leaf A:5 in a queue of capacity 2. -/
theorem buildTree_single_leaf_witness :
    buildTree 1 2 [newNode 65 5] =
        some { treeQueue := { capacity := 2, entries := [] },
               huffmanTree := some (newNode 65 5), joins := 0 } ∧
      assignCodes (newNode 65 5) emptyCodes (newBitVector 8) 65 = some [] :=
  buildTree_single_leaf 65 5 2 1 (by decide) (by decide)

/-- C7 (counterexample): for the single leaf A:5 the build loop returns the leaf, and the
code that `assignCodes` stores for `'A'` is the empty code: there is no stored code of
length at least 1. -/
theorem buildTree_single_leaf_counterexample :
    buildTree 1 2 [newNode 65 5] =
        some { treeQueue := { capacity := 2, entries := [] },
               huffmanTree := some (leafNode 65 5), joins := 0 } ∧
      assignCodes (leafNode 65 5) emptyCodes (newBitVector 8) 65 = some [] ∧
      ¬ ∃ c : bitV, assignCodes (leafNode 65 5) emptyCodes (newBitVector 8) 65 = some c ∧
          1 ≤ c.length := by
  refine ⟨by decide, by decide, ?_⟩
  rintro ⟨c, hc, hlen⟩
  have h : assignCodes (leafNode 65 5) emptyCodes (newBitVector 8) 65 = some [] := by decide
  rw [h] at hc
  simp only [Option.some.injEq] at hc
  rw [← hc] at hlen
  simp at hlen

/-- C10: with the leaves X:5, Y:2, Z:1 enqueued in the order of their symbols, the first
pass of the build loop joins Z and Y into a node of weight 3, the second joins that node
with X into a root of weight 8, the third finds the queue empty; `assignCodes` then gives
X the code `1` and gives Y and Z the codes `01` and `00`, of length 2 and different in the
last bit only. -/
theorem buildTree_scenario_XYZ :
    buildStep { treeQueue := seedQueue (newHuffPQueue 4) [newNode 88 5, newNode 89 2, newNode 90 1],
                huffmanTree := none, joins := 0 } =
        some { treeQueue := { capacity := 4, entries :=
                 [leafNode 88 5, joinNode 42 3 (leafNode 90 1) (leafNode 89 2)] },
               huffmanTree := some (joinNode 42 3 (leafNode 90 1) (leafNode 89 2)),
               joins := 1 } ∧
      buildStep { treeQueue := { capacity := 4, entries :=
                    [leafNode 88 5, joinNode 42 3 (leafNode 90 1) (leafNode 89 2)] },
                  huffmanTree := some (joinNode 42 3 (leafNode 90 1) (leafNode 89 2)),
                  joins := 1 } =
        some { treeQueue := { capacity := 4, entries :=
                 [joinNode 42 8 (joinNode 42 3 (leafNode 90 1) (leafNode 89 2)) (leafNode 88 5)] },
               huffmanTree :=
                 some (joinNode 42 8 (joinNode 42 3 (leafNode 90 1) (leafNode 89 2)) (leafNode 88 5)),
               joins := 2 } ∧
      buildTree 3 4 [newNode 88 5, newNode 89 2, newNode 90 1] =
        some { treeQueue := { capacity := 4, entries := [] },
               huffmanTree :=
                 some (joinNode 42 8 (joinNode 42 3 (leafNode 90 1) (leafNode 89 2)) (leafNode 88 5)),
               joins := 2 } ∧
      assignCodes (joinNode 42 8 (joinNode 42 3 (leafNode 90 1) (leafNode 89 2)) (leafNode 88 5))
        emptyCodes (newBitVector 8) 88 = some [true] ∧
      assignCodes (joinNode 42 8 (joinNode 42 3 (leafNode 90 1) (leafNode 89 2)) (leafNode 88 5))
        emptyCodes (newBitVector 8) 89 = some [false, true] ∧
      assignCodes (joinNode 42 8 (joinNode 42 3 (leafNode 90 1) (leafNode 89 2)) (leafNode 88 5))
        emptyCodes (newBitVector 8) 90 = some [false, false] := by
  refine ⟨by decide, by decide, by decide, by decide, by decide, by decide⟩

/-! ## The priority queue and the build loop -/

theorem removeMin_perm : ∀ (ts : List treeNode) (t : treeNode),
    List.Perm ((removeMin t ts).1 :: (removeMin t ts).2) (t :: ts) := by
  intro ts
  induction ts with
  | nil => intro t; simp [removeMin]
  | cons u us ih =>
      intro t
      simp only [removeMin]
      split
      · exact List.Perm.refl _
      · exact (List.Perm.swap _ _ _).trans ((ih u).cons t)

theorem removeMin_min : ∀ (ts : List treeNode) (t : treeNode),
    ∀ x ∈ (removeMin t ts).2, (removeMin t ts).1.frequency ≤ x.frequency := by
  intro ts
  induction ts with
  | nil => intro t x hx; simp [removeMin] at hx
  | cons u us ih =>
      intro t x hx
      simp only [removeMin] at hx ⊢
      split at hx
      · rename_i hle
        simp only [hle, if_true]
        have hx1 : x ∈ (removeMin u us).1 :: (removeMin u us).2 :=
          (removeMin_perm us u).mem_iff.mpr hx
        rcases List.mem_cons.mp hx1 with h | h
        · rw [h]; exact hle
        · exact Nat.le_trans hle (ih u x h)
      · rename_i hle
        simp only [hle, if_false]
        rcases List.mem_cons.mp hx with h | h
        · rw [h]; omega
        · exact ih u x h

theorem seedQueue_entries (cap : Nat) :
    ∀ (nodes es : List treeNode), es.length + nodes.length ≤ cap →
      seedQueue { capacity := cap, entries := es } nodes =
        { capacity := cap, entries := es ++ nodes } := by
  intro nodes
  induction nodes with
  | nil => intro es _; simp [seedQueue]
  | cons n ns ih =>
      intro es h
      simp only [List.length_cons] at h
      have hlt : es.length < cap := by omega
      have := ih (es ++ [n]) (by simp; omega)
      simp only [seedQueue, List.foldl_cons, enqueueHuffPQueue, hlt, if_true] at this ⊢
      rw [this]
      simp

theorem buildLoop_empty (fuel cap : Nat) (ht : Option treeNode) (j : Nat) :
    buildLoop fuel { treeQueue := { capacity := cap, entries := [] }, huffmanTree := ht,
                     joins := j } =
      some { treeQueue := { capacity := cap, entries := [] }, huffmanTree := ht, joins := j } := by
  cases fuel <;> simp [buildLoop, emptyHuffPQueue]

/-- The build loop on a queue of `n + 1` entries: it ends after `n` joins with the queue
empty, and its tree is the result of the greedy merges. -/
theorem buildLoop_merges (cap : Nat) :
    ∀ (n : Nat) (es : List treeNode) (ht : Option treeNode) (j fuel : Nat),
      es.length = n + 1 → es.length ≤ cap → n + 1 ≤ fuel →
      ∃ t, buildLoop fuel { treeQueue := { capacity := cap, entries := es }, huffmanTree := ht,
                            joins := j } =
            some { treeQueue := { capacity := cap, entries := [] }, huffmanTree := some t,
                   joins := j + n } ∧
          Merges es t n := by
  intro n
  induction n with
  | zero =>
      intro es ht j fuel hlen _ hfuel
      obtain ⟨t, rfl⟩ : ∃ t, es = [t] := by
        match es, hlen with
        | [t], _ => exact ⟨t, rfl⟩
      obtain ⟨k, rfl⟩ : ∃ k, fuel = k + 1 := ⟨fuel - 1, by omega⟩
      refine ⟨t, ?_, Merges.last t⟩
      simp only [buildLoop, emptyHuffPQueue, buildStep, dequeueHuffPQueue, removeMin,
        List.isEmpty_cons, List.isEmpty_nil, Bool.not_false, Bool.not_true, if_true,
        Bool.false_eq_true, if_false]
      exact buildLoop_empty k cap (some t) j
  | succ n ih =>
      intro es ht j fuel hlen hcap hfuel
      obtain ⟨x, xs, rfl⟩ : ∃ x xs, es = x :: xs := by
        match es, hlen with
        | x :: xs, _ => exact ⟨x, xs, rfl⟩
      obtain ⟨k, rfl⟩ : ∃ k, fuel = k + 1 := ⟨fuel - 1, by omega⟩
      have hp1 := removeMin_perm xs x
      have hm1 := removeMin_min xs x
      have hl1 : (removeMin x xs).2.length = n + 1 := by
        have := hp1.length_eq
        simp only [List.length_cons] at this hlen
        omega
      obtain ⟨y, ys, hr1⟩ : ∃ y ys, (removeMin x xs).2 = y :: ys := by
        match (removeMin x xs).2, hl1 with
        | y :: ys, _ => exact ⟨y, ys, rfl⟩
      have hp2 := removeMin_perm ys y
      have hm2 := removeMin_min ys y
      have hl2 : (removeMin y ys).2.length = n := by
        have := hp2.length_eq
        rw [hr1] at hl1
        simp only [List.length_cons] at this hl1
        omega
      simp only [List.length_cons] at hlen hcap
      have hlt : (removeMin y ys).2.length < cap := by omega
      obtain ⟨t, hrun, hmer⟩ := ih
        ((removeMin y ys).2 ++ [join (removeMin x xs).1 (removeMin y ys).1])
        (some (join (removeMin x xs).1 (removeMin y ys).1)) (j + 1) k
        (by simp; omega) (by simp; omega) (by omega)
      refine ⟨t, ?_, ?_⟩
      · simp only [buildLoop, emptyHuffPQueue, buildStep, dequeueHuffPQueue, hr1,
          enqueueHuffPQueue, hlt, List.isEmpty_cons, Bool.not_false, if_true]
        rw [hrun]
        congr 2
        omega
      · refine Merges.step (x :: xs) (removeMin x xs).1 (removeMin y ys).1 (removeMin y ys).2 t n
          ?_ ?_ hm2 hmer
        · have h1 : List.Perm ((removeMin x xs).1 :: y :: ys) (x :: xs) := by
            rw [← hr1]; exact hp1
          exact (h1.symm).trans (hp2.symm.cons _)
        · intro z hz
          apply hm1
          rw [hr1]
          exact hp2.mem_iff.mp hz

/-! ## C8, C4: what the build loop returns -/

theorem forestLeaves_append (a b : List treeNode) :
    forestLeaves (a ++ b) = forestLeaves a ++ forestLeaves b := by
  induction a with
  | nil => rfl
  | cons t ts ih => simp [forestLeaves, ih]

theorem forestLeaves_perm {a b : List treeNode} (h : List.Perm a b) :
    List.Perm (forestLeaves a) (forestLeaves b) := by
  induction h with
  | nil => exact List.Perm.refl _
  | cons x _ ih => exact List.Perm.append_left _ ih
  | swap x y l => exact List.perm_append_comm_assoc _ _ _
  | trans _ _ ih1 ih2 => exact ih1.trans ih2

theorem forestLeaves_of_leaves :
    ∀ leaves : List treeNode, (∀ t ∈ leaves, t.leaf = true) → forestLeaves leaves = leaves := by
  intro leaves
  induction leaves with
  | nil => intro _; rfl
  | cons t ts ih =>
      intro h
      have ht := h t (by simp)
      have hts := ih (fun x hx => h x (by simp [hx]))
      cases t with
      | leafNode s f => simp [forestLeaves, leafNodes, hts]
      | joinNode s f l r => simp [treeNode.leaf] at ht

/-- The leaves of the merged tree are the leaves of the entries, each once. -/
theorem Merges.leaves_perm {es : List treeNode} {t : treeNode} {j : Nat} (h : Merges es t j) :
    List.Perm (leafNodes t) (forestLeaves es) := by
  induction h with
  | last t => simp [forestLeaves]
  | step es a b rest t j hperm _ _ _ ih =>
      refine ih.trans ?_
      refine List.Perm.trans ?_ (forestLeaves_perm hperm).symm
      simp only [forestLeaves_append, forestLeaves, join, leafNodes, List.append_nil]
      have := @List.perm_append_comm _ (forestLeaves rest) (leafNodes a ++ leafNodes b)
      simpa using this

/-- C8: for every queue seeded with `n >= 1` leaves (and room for them), the build loop
ends, given `n` passes of fuel, after exactly `n - 1` joins with the queue empty, and
returns a single tree whose leaves are exactly the seeded leaves, each once; a tree of the
model is a full binary tree (a leaf has no child, an internal node has two); each pass that
dequeues two nodes makes the first the left and the second the right child of the join. -/
theorem buildTree_result (leaves : List treeNode) (cap fuel : Nat)
    (hleaf : ∀ t ∈ leaves, t.leaf = true) (hn : 1 ≤ leaves.length)
    (hcap : leaves.length ≤ cap) (hfuel : leaves.length ≤ fuel) :
    (∃ t, buildTree fuel cap leaves =
          some { treeQueue := { capacity := cap, entries := [] }, huffmanTree := some t,
                 joins := leaves.length - 1 } ∧
        List.Perm (leafNodes t) leaves) ∧
      (∀ (s : BuildState) (d1 d2 : treeNode) (q1 q2 : huffPQueue),
        dequeueHuffPQueue s.treeQueue = some (d1, q1) → emptyHuffPQueue q1 = false →
        dequeueHuffPQueue q1 = some (d2, q2) →
        buildStep s = some { treeQueue := enqueueHuffPQueue q2 (join d1 d2),
                             huffmanTree := some (join d1 d2), joins := s.joins + 1 } ∧
          join d1 d2 = joinNode 42 ((d1.frequency + d2.frequency) % 2 ^ 64) d1 d2) := by
  constructor
  · obtain ⟨n, hlen⟩ : ∃ n, leaves.length = n + 1 := ⟨leaves.length - 1, by omega⟩
    obtain ⟨t, hrun, hmer⟩ := buildLoop_merges cap n leaves none 0 fuel hlen hcap (by omega)
    refine ⟨t, ?_, ?_⟩
    · have hseed := seedQueue_entries cap leaves [] (by simpa using hcap)
      simp only [List.nil_append] at hseed
      rw [buildTree, newHuffPQueue, hseed, hrun]
      congr 2
      omega
    · have := hmer.leaves_perm
      rwa [forestLeaves_of_leaves leaves hleaf] at this
  · intro s d1 d2 q1 q2 h1 he h2
    simp [buildStep, h1, he, h2, join]

/-- C8 (witness): the build loop on the leaves X:5, Y:2, Z:1 in a queue of capacity 4. -/
theorem buildTree_result_witness :
    (∃ t, buildTree 3 4 [newNode 88 5, newNode 89 2, newNode 90 1] =
          some { treeQueue := { capacity := 4, entries := [] }, huffmanTree := some t,
                 joins := [newNode 88 5, newNode 89 2, newNode 90 1].length - 1 } ∧
        List.Perm (leafNodes t) [newNode 88 5, newNode 89 2, newNode 90 1]) ∧
      (∀ (s : BuildState) (d1 d2 : treeNode) (q1 q2 : huffPQueue),
        dequeueHuffPQueue s.treeQueue = some (d1, q1) → emptyHuffPQueue q1 = false →
        dequeueHuffPQueue q1 = some (d2, q2) →
        buildStep s = some { treeQueue := enqueueHuffPQueue q2 (join d1 d2),
                             huffmanTree := some (join d1 d2), joins := s.joins + 1 } ∧
          join d1 d2 = joinNode 42 ((d1.frequency + d2.frequency) % 2 ^ 64) d1 d2) :=
  buildTree_result [newNode 88 5, newNode 89 2, newNode 90 1] 4 3 (by decide) (by decide)
    (by decide) (by decide)

theorem exactWeights_join (a b : treeNode) (ha : exactWeights a) (hb : exactWeights b)
    (h : a.frequency + b.frequency < 2 ^ 64) :
    exactWeights (join a b) ∧ (join a b).frequency = a.frequency + b.frequency := by
  have e := Nat.mod_eq_of_lt h
  constructor
  · show (a.frequency + b.frequency) % 2 ^ 64 = a.frequency + b.frequency ∧
      exactWeights a ∧ exactWeights b
    exact ⟨e, ha, hb⟩
  · exact e

/-- While the frequencies do not leave the range of `uint64_t`, the merged tree carries
exact sums, and its root the sum of the frequencies of the entries. -/
theorem Merges.weights_exact {es : List treeNode} {t : treeNode} {j : Nat} (h : Merges es t j) :
    (∀ e ∈ es, exactWeights e) → (es.map treeNode.frequency).sum < 2 ^ 64 →
      exactWeights t ∧ t.frequency = (es.map treeNode.frequency).sum := by
  induction h with
  | last t => intro he _; exact ⟨he t (by simp), by simp⟩
  | step es a b rest t j hperm _ _ _ ih =>
      intro he hsum
      have hs : (es.map treeNode.frequency).sum =
          a.frequency + (b.frequency + (rest.map treeNode.frequency).sum) := by
        rw [(hperm.map treeNode.frequency).sum_eq]; simp
      have hmem : ∀ x, x ∈ a :: b :: rest → exactWeights x := fun x hx =>
        he x (hperm.mem_iff.mpr hx)
      have hab : a.frequency + b.frequency < 2 ^ 64 := by omega
      obtain ⟨hj, hjf⟩ := exactWeights_join a b (hmem a (by simp)) (hmem b (by simp)) hab
      have hs2 : ((rest ++ [join a b]).map treeNode.frequency).sum =
          (es.map treeNode.frequency).sum := by
        rw [hs]; simp [hjf]; omega
      have := ih (by
        intro e hmemE
        rcases List.mem_append.mp hmemE with h1 | h1
        · exact hmem e (by simp [h1])
        · simp only [List.mem_singleton] at h1; rw [h1]; exact hj) (by rw [hs2]; exact hsum)
      rw [hs2] at this
      exact this

theorem exactWeights_of_leaf (t : treeNode) (h : t.leaf = true) : exactWeights t := by
  cases t with
  | leafNode s f => trivial
  | joinNode s f l r => simp [treeNode.leaf] at h

/-- C4: in the tree that the build loop returns for leaves whose frequencies add up to less
than `2 ^ 64` (as the counts of a histogram of `int` do), the frequency of every internal
node is the exact sum of the frequencies of its two children, and the frequency of the root
is the sum of the frequencies of all leaves that were enqueued. -/
theorem buildTree_exactWeights (leaves : List treeNode) (cap fuel : Nat)
    (hleaf : ∀ t ∈ leaves, t.leaf = true) (hn : 1 ≤ leaves.length)
    (hcap : leaves.length ≤ cap) (hfuel : leaves.length ≤ fuel)
    (hsum : (leaves.map treeNode.frequency).sum < 2 ^ 64) :
    ∃ s t, buildTree fuel cap leaves = some s ∧ s.huffmanTree = some t ∧
      exactWeights t ∧ t.frequency = (leaves.map treeNode.frequency).sum := by
  obtain ⟨n, hlen⟩ : ∃ n, leaves.length = n + 1 := ⟨leaves.length - 1, by omega⟩
  obtain ⟨t, hrun, hmer⟩ := buildLoop_merges cap n leaves none 0 fuel hlen hcap (by omega)
  have hseed := seedQueue_entries cap leaves [] (by simpa using hcap)
  simp only [List.nil_append] at hseed
  refine ⟨{ treeQueue := { capacity := cap, entries := [] }, huffmanTree := some t,
             joins := 0 + n }, t, ?_, rfl, ?_⟩
  · rw [buildTree, newHuffPQueue, hseed, hrun]
  · exact hmer.weights_exact (fun e he => exactWeights_of_leaf e (hleaf e he)) hsum

/-- C4 (witness): the weights of the tree built from the leaves X:5, Y:2, Z:1. -/
theorem buildTree_exactWeights_witness :
    ∃ s t, buildTree 3 4 [newNode 88 5, newNode 89 2, newNode 90 1] = some s ∧
      s.huffmanTree = some t ∧ exactWeights t ∧
      t.frequency = ([newNode 88 5, newNode 89 2, newNode 90 1].map treeNode.frequency).sum :=
  buildTree_exactWeights [newNode 88 5, newNode 89 2, newNode 90 1] 4 3 (by decide) (by decide)
    (by decide) (by decide) (by decide)

/-! ## C3: the greedy merge gives a tree of minimum weighted path length -/

theorem wdAt_snd (u : treeNode) : ∀ k, (wdAt k u).map Prod.snd = depthsAt k u := by
  induction u with
  | leafNode s f => intro k; rfl
  | joinNode s f l r ihl ihr => intro k; simp [wdAt, depthsAt, ihl, ihr]

theorem wdAt_fst (u : treeNode) :
    ∀ k, (wdAt k u).map Prod.fst = (leafNodes u).map treeNode.frequency := by
  induction u with
  | leafNode s f => intro k; rfl
  | joinNode s f l r ihl ihr => intro k; simp [wdAt, leafNodes, ihl, ihr]

theorem pcost_append (A B : List (Nat × Nat)) : pcost (A ++ B) = pcost A + pcost B := by
  simp [pcost]

theorem pcost_cons (p : Nat × Nat) (A : List (Nat × Nat)) :
    pcost (p :: A) = p.1 * p.2 + pcost A := by
  simp [pcost]

theorem pcost_perm {A B : List (Nat × Nat)} (h : List.Perm A B) : pcost A = pcost B := by
  unfold pcost
  exact (h.map _).sum_eq

theorem pcost_wdAt (u : treeNode) : ∀ k, pcost (wdAt k u) = costAt k u := by
  induction u with
  | leafNode s f => intro k; simp [wdAt, pcost, costAt]
  | joinNode s f l r ihl ihr => intro k; simp [wdAt, pcost_append, costAt, ihl, ihr]

theorem costAt_succ (t : treeNode) : ∀ d, costAt (d + 1) t = costAt d t + weight t := by
  induction t with
  | leafNode s f => intro d; simp [costAt, weight, Nat.mul_add]
  | joinNode s f l r ihl ihr =>
      intro d
      simp only [costAt, weight, ihl, ihr]
      omega

theorem frequency_eq_weight (t : treeNode) : exactWeights t → t.frequency = weight t := by
  induction t with
  | leafNode s f => intro _; rfl
  | joinNode s f l r ihl ihr =>
      intro h
      obtain ⟨hf, hl, hr⟩ := h
      show f = weight l + weight r
      rw [hf, ihl hl, ihr hr]

theorem cost_join (a b : treeNode) : cost (join a b) = cost a + cost b + (weight a + weight b) := by
  simp only [cost, join, costAt, Nat.zero_add]
  have ha := costAt_succ a 0
  have hb := costAt_succ b 0
  simp only [Nat.zero_add] at ha hb
  rw [ha, hb]
  omega

theorem depthsAt_le (u : treeNode) : ∀ k, ∀ d ∈ depthsAt k u, d ≤ k + height u := by
  induction u with
  | leafNode s f => intro k d hd; simp [depthsAt] at hd; simp [height, hd]
  | joinNode s f l r ihl ihr =>
      intro k d hd
      simp only [depthsAt, List.mem_append] at hd
      simp only [height]
      rcases hd with h | h
      · have := ihl (k + 1) d h; omega
      · have := ihr (k + 1) d h; omega

theorem height_eq_zero (u : treeNode) (h : height u = 0) : ∃ s f, u = leafNode s f := by
  cases u with
  | leafNode s f => exact ⟨s, f, rfl⟩
  | joinNode s f l r => simp [height] at h

theorem length_depthsAt_of_height_zero (u : treeNode) (k : Nat) (h : height u = 0) :
    (depthsAt k u).length = 1 := by
  obtain ⟨s, f, rfl⟩ := height_eq_zero u h
  rfl

/-- A tree that is not a leaf has two leaves of greatest depth that can be merged into one
leaf one level up: the depths of the other leaves stay. -/
theorem exists_deepest_pair (u : treeNode) :
    ∀ k, 1 ≤ height u →
      ∃ (u1 : treeNode) (R : List Nat),
        List.Perm (depthsAt k u) ((k + height u) :: (k + height u) :: R) ∧
        List.Perm (depthsAt k u1) ((k + height u - 1) :: R) := by
  induction u with
  | leafNode s f => intro k h; simp [height] at h
  | joinNode s f l r ihl ihr =>
      intro k _
      by_cases hboth : height l = 0 ∧ height r = 0
      · obtain ⟨sl, fl, rfl⟩ := height_eq_zero l hboth.1
        obtain ⟨sr, fr, rfl⟩ := height_eq_zero r hboth.2
        exact ⟨leafNode 0 0, [], by simp [depthsAt, height], by simp [depthsAt, height]⟩
      · by_cases hle : height r ≤ height l
        · have hl1 : 1 ≤ height l := by omega
          obtain ⟨l1, Rl, h1, h2⟩ := ihl (k + 1) hl1
          have e : k + height (joinNode s f l r) = k + 1 + height l := by
            simp only [height]; omega
          refine ⟨joinNode s f l1 r, Rl ++ depthsAt (k + 1) r, ?_, ?_⟩
          · rw [e]
            simpa [depthsAt] using h1.append_right (depthsAt (k + 1) r)
          · rw [e]
            simpa [depthsAt] using h2.append_right (depthsAt (k + 1) r)
        · have hr1 : 1 ≤ height r := by omega
          obtain ⟨r1, Rr, h1, h2⟩ := ihr (k + 1) hr1
          have e : k + height (joinNode s f l r) = k + 1 + height r := by
            simp only [height]; omega
          refine ⟨joinNode s f l r1, Rr ++ depthsAt (k + 1) l, ?_, ?_⟩
          · rw [e]
            have := (h1.append_right (depthsAt (k + 1) l))
            exact (List.perm_append_comm).trans (by simpa [depthsAt] using this)
          · rw [e]
            have := (h2.append_right (depthsAt (k + 1) l))
            exact (List.perm_append_comm).trans (by simpa [depthsAt] using this)

theorem exists_perm_cons {α : Type} (x : α) (L : List α) (h : x ∈ L) :
    ∃ L0, List.Perm L (x :: L0) := by
  obtain ⟨s, t, rfl⟩ := List.append_of_mem h
  exact ⟨s ++ t, List.perm_middle⟩

theorem swap_ineq (a x d m : Nat) (hax : a ≤ x) (hdm : d ≤ m) :
    a * m + x * d ≤ a * d + x * m := by
  obtain ⟨u, rfl⟩ := Nat.exists_eq_add_of_le hax
  obtain ⟨v, rfl⟩ := Nat.exists_eq_add_of_le hdm
  nlinarith [Nat.zero_le (u * v)]

/-- In a list of pairs (weight, depth), a least weight can be given a greatest depth
without raising the weighted path length: the pair is taken out of the list. -/
theorem swap_to_deepest (L : List (Nat × Nat)) (a m : Nat) (W1 D1 : List Nat)
    (hw : List.Perm (L.map Prod.fst) (a :: W1)) (hd : List.Perm (L.map Prod.snd) (m :: D1))
    (hmin : ∀ w ∈ L.map Prod.fst, a ≤ w) (hmax : ∀ d ∈ L.map Prod.snd, d ≤ m) :
    ∃ L1 : List (Nat × Nat), List.Perm (L1.map Prod.fst) W1 ∧
      List.Perm (L1.map Prod.snd) D1 ∧ a * m + pcost L1 ≤ pcost L := by
  have ha : a ∈ L.map Prod.fst := hw.mem_iff.mpr (by simp)
  obtain ⟨p, hp, hpa⟩ := List.mem_map.mp ha
  obtain ⟨L0, hL⟩ := exists_perm_cons p L hp
  have hw0 : List.Perm (L0.map Prod.fst) W1 := by
    have := ((hL.map Prod.fst).symm.trans hw)
    simp only [List.map_cons, hpa] at this
    exact this.cons_inv
  have hd0 : List.Perm (p.2 :: L0.map Prod.snd) (m :: D1) := by
    have := ((hL.map Prod.snd).symm.trans hd)
    simpa using this
  have hcost : pcost L = a * p.2 + pcost L0 := by
    rw [pcost_perm hL, pcost_cons, hpa]
  by_cases hpm : p.2 = m
  · refine ⟨L0, hw0, ?_, ?_⟩
    · rw [hpm] at hd0; exact hd0.cons_inv
    · rw [hcost, hpm]
  · have hm : m ∈ L0.map Prod.snd := by
      have : m ∈ p.2 :: L0.map Prod.snd := hd0.mem_iff.mpr (by simp)
      rcases List.mem_cons.mp this with h | h
      · exact absurd h.symm hpm
      · exact h
    obtain ⟨q, hq, hqm⟩ := List.mem_map.mp hm
    obtain ⟨L00, hL0⟩ := exists_perm_cons q L0 hq
    refine ⟨(q.1, p.2) :: L00, ?_, ?_, ?_⟩
    · have := (hL0.map Prod.fst).symm.trans hw0
      simpa using this
    · have h1 : List.Perm (p.2 :: m :: L00.map Prod.snd) (m :: D1) := by
        have := ((hL0.map Prod.snd).cons p.2).symm.trans hd0
        simpa [hqm] using this
      have h2 := (List.Perm.swap p.2 m (L00.map Prod.snd)).trans h1
      simpa using h2.cons_inv
    · have hqL : q ∈ L := hL.mem_iff.mpr (List.mem_cons_of_mem _ hq)
      have hq1 : a ≤ q.1 := hmin q.1 (List.mem_map.mpr ⟨q, hqL, rfl⟩)
      have hp2 : p.2 ≤ m := hmax p.2 (List.mem_map.mpr ⟨p, hp, rfl⟩)
      rw [hcost, pcost_perm hL0, pcost_cons, pcost_cons, hqm]
      have := swap_ineq a q.1 p.2 m hq1 hp2
      simp only
      omega

/-- The exchange step: in a realisable assignment of depths to weights, the two least
weights can be merged into one weight, with a realisable assignment for the new weights
whose weighted path length is lower by at least the two weights. -/
theorem exchange_two_least (L : List (Nat × Nat)) (a b : Nat) (W : List Nat)
    (hreal : Realisable (L.map Prod.snd))
    (hw : List.Perm (L.map Prod.fst) (a :: b :: W))
    (ha : ∀ w ∈ b :: W, a ≤ w) (hb : ∀ w ∈ W, b ≤ w) :
    ∃ L1 : List (Nat × Nat), Realisable (L1.map Prod.snd) ∧
      List.Perm (L1.map Prod.fst) ((a + b) :: W) ∧ pcost L1 + (a + b) ≤ pcost L := by
  obtain ⟨u, hu⟩ := hreal
  have hlen : (depthsAt 0 u).length = W.length + 2 := by
    have h1 := hu.length_eq
    have h2 := hw.length_eq
    simp only [List.length_map, List.length_cons] at h1 h2
    omega
  have hh : 1 ≤ height u := by
    by_contra hc
    have := length_depthsAt_of_height_zero u 0 (by omega)
    omega
  obtain ⟨u1, R, hdeep, hdeep1⟩ := exists_deepest_pair u 0 hh
  simp only [Nat.zero_add] at hdeep hdeep1
  have hd : List.Perm (L.map Prod.snd) (height u :: height u :: R) := hu.symm.trans hdeep
  have hmax : ∀ d ∈ L.map Prod.snd, d ≤ height u := by
    intro d hdm
    have := depthsAt_le u 0 d (hu.mem_iff.mpr hdm)
    omega
  have hmin : ∀ w ∈ L.map Prod.fst, a ≤ w := by
    intro w hwm
    rcases List.mem_cons.mp (hw.mem_iff.mp hwm) with h | h
    · omega
    · exact ha w h
  obtain ⟨L1, hw1, hd1, hc1⟩ := swap_to_deepest L a (height u) (b :: W) (height u :: R)
    hw hd hmin hmax
  have hmax1 : ∀ d ∈ L1.map Prod.snd, d ≤ height u := by
    intro d hdm
    apply hmax
    apply hd.mem_iff.mpr
    exact List.mem_cons_of_mem _ (hd1.mem_iff.mp hdm)
  have hmin1 : ∀ w ∈ L1.map Prod.fst, b ≤ w := by
    intro w hwm
    rcases List.mem_cons.mp (hw1.mem_iff.mp hwm) with h | h
    · omega
    · exact hb w h
  obtain ⟨L2, hw2, hd2, hc2⟩ := swap_to_deepest L1 b (height u) W R hw1 hd1 hmin1 hmax1
  refine ⟨(a + b, height u - 1) :: L2, ⟨u1, ?_⟩, ?_, ?_⟩
  · exact hdeep1.trans (by simpa using hd2.symm)
  · simpa using hw2
  · rw [pcost_cons]
    simp only
    have e : (a + b) * (height u - 1) + (a + b) = a * height u + b * height u := by
      obtain ⟨h, hhe⟩ : ∃ h, height u = h + 1 := ⟨height u - 1, by omega⟩
      rw [hhe]
      simp only [Nat.add_sub_cancel]
      ring
    omega

/-- The tree of the greedy merges costs no more than the trees it is made of and any
realisable assignment of depths to their frequencies. -/
theorem Merges.cost_le {es : List treeNode} {t : treeNode} {j : Nat} (h : Merges es t j) :
    (∀ e ∈ es, exactWeights e) → (es.map treeNode.frequency).sum < 2 ^ 64 →
      ∀ L : List (Nat × Nat), Realisable (L.map Prod.snd) →
        List.Perm (L.map Prod.fst) (es.map treeNode.frequency) →
        cost t ≤ (es.map cost).sum + pcost L := by
  induction h with
  | last t => intro _ _ L _ _; simp
  | step es a b rest t j hperm hmina hminb _ ih =>
      intro he hsum L hreal hw
      have hs : (es.map treeNode.frequency).sum =
          a.frequency + (b.frequency + (rest.map treeNode.frequency).sum) := by
        rw [(hperm.map treeNode.frequency).sum_eq]; simp
      have hcs : (es.map cost).sum = cost a + (cost b + (rest.map cost).sum) := by
        rw [(hperm.map cost).sum_eq]; simp
      have hmem : ∀ x, x ∈ a :: b :: rest → exactWeights x := fun x hx =>
        he x (hperm.mem_iff.mpr hx)
      have hab : a.frequency + b.frequency < 2 ^ 64 := by omega
      have hea := hmem a (by simp)
      have heb := hmem b (by simp)
      obtain ⟨hj, hjf⟩ := exactWeights_join a b hea heb hab
      have hs2 : ((rest ++ [join a b]).map treeNode.frequency).sum =
          (es.map treeNode.frequency).sum := by
        rw [hs]; simp [hjf]; omega
      have hw1 : List.Perm (L.map Prod.fst)
          (a.frequency :: b.frequency :: rest.map treeNode.frequency) := by
        simpa using hw.trans (hperm.map treeNode.frequency)
      obtain ⟨L1, hreal1, hwL1, hcL1⟩ := exchange_two_least L a.frequency b.frequency
        (rest.map treeNode.frequency) hreal hw1
        (by
          intro w hwm
          have : w ∈ (b :: rest).map treeNode.frequency := by simpa using hwm
          obtain ⟨x, hx, rfl⟩ := List.mem_map.mp this
          exact hmina x hx)
        (by
          intro w hwm
          obtain ⟨x, hx, rfl⟩ := List.mem_map.mp hwm
          exact hminb x hx)
      have hwL1b : List.Perm (L1.map Prod.fst) ((rest ++ [join a b]).map treeNode.frequency) := by
        refine hwL1.trans ?_
        simp only [List.map_append, List.map_cons, List.map_nil, hjf]
        have := @List.perm_append_comm _ [a.frequency + b.frequency]
          (rest.map treeNode.frequency)
        simpa using this
      have hih := ih (by
        intro e hmemE
        rcases List.mem_append.mp hmemE with h1 | h1
        · exact hmem e (by simp [h1])
        · simp only [List.mem_singleton] at h1; rw [h1]; exact hj) (by rw [hs2]; exact hsum)
        L1 hreal1 hwL1b
      have hcj := cost_join a b
      rw [← frequency_eq_weight a hea, ← frequency_eq_weight b heb] at hcj
      have hcs2 : ((rest ++ [join a b]).map cost).sum = (rest.map cost).sum + cost (join a b) := by
        simp
      rw [hcs2, hcj] at hih
      rw [hcs]
      omega

theorem cost_of_leaf (t : treeNode) (h : t.leaf = true) : cost t = 0 := by
  cases t with
  | leafNode s f => simp [cost, costAt]
  | joinNode s f l r => simp [treeNode.leaf] at h

theorem sum_cost_of_leaves :
    ∀ leaves : List treeNode, (∀ t ∈ leaves, t.leaf = true) → (leaves.map cost).sum = 0 := by
  intro leaves
  induction leaves with
  | nil => intro _; rfl
  | cons t ts ih =>
      intro h
      simp [cost_of_leaf t (h t (by simp)), ih (fun x hx => h x (by simp [hx]))]

/-- C3: for every non-empty list of leaves whose frequencies add up to less than `2 ^ 64`
(as the counts of a histogram of `int` do), seeded into a queue that dequeues a least
frequency and has room for them, the build loop (dequeue two, join, enqueue, until the
queue is empty) returns, given one pass of fuel for each leaf, a tree with these leaves
whose weighted path length (sum over the leaves of frequency times depth) is least among
all trees with the same leaves. -/
theorem buildTree_optimal (leaves : List treeNode) (cap fuel : Nat)
    (hleaf : ∀ t ∈ leaves, t.leaf = true) (hn : 1 ≤ leaves.length)
    (hcap : leaves.length ≤ cap) (hfuel : leaves.length ≤ fuel)
    (hsum : (leaves.map treeNode.frequency).sum < 2 ^ 64) :
    ∃ s t, buildTree fuel cap leaves = some s ∧ s.huffmanTree = some t ∧
      List.Perm (leafNodes t) leaves ∧
      ∀ u : treeNode, List.Perm (leafNodes u) leaves → cost t ≤ cost u := by
  obtain ⟨n, hlen⟩ : ∃ n, leaves.length = n + 1 := ⟨leaves.length - 1, by omega⟩
  obtain ⟨t, hrun, hmer⟩ := buildLoop_merges cap n leaves none 0 fuel hlen hcap (by omega)
  have hseed := seedQueue_entries cap leaves [] (by simpa using hcap)
  simp only [List.nil_append] at hseed
  refine ⟨{ treeQueue := { capacity := cap, entries := [] }, huffmanTree := some t,
             joins := 0 + n }, t, ?_, rfl, ?_, ?_⟩
  · rw [buildTree, newHuffPQueue, hseed, hrun]
  · have := hmer.leaves_perm
    rwa [forestLeaves_of_leaves leaves hleaf] at this
  · intro u hu
    have h := hmer.cost_le (fun e he => exactWeights_of_leaf e (hleaf e he)) hsum (wdAt 0 u)
      ⟨u, by rw [wdAt_snd]⟩ (by rw [wdAt_fst]; exact hu.map _)
    rw [sum_cost_of_leaves leaves hleaf, pcost_wdAt] at h
    simpa [cost] using h

/-- C3 (witness): the tree built from the leaves X:5, Y:2, Z:1 has least weighted path
length. -/
theorem buildTree_optimal_witness :
    ∃ s t, buildTree 3 4 [newNode 88 5, newNode 89 2, newNode 90 1] = some s ∧
      s.huffmanTree = some t ∧
      List.Perm (leafNodes t) [newNode 88 5, newNode 89 2, newNode 90 1] ∧
      ∀ u : treeNode, List.Perm (leafNodes u) [newNode 88 5, newNode 89 2, newNode 90 1] →
        cost t ≤ cost u :=
  buildTree_optimal [newNode 88 5, newNode 89 2, newNode 90 1] 4 3 (by decide) (by decide)
    (by decide) (by decide) (by decide)

/-! ## The leaves that `main` enqueues -/

theorem frequency_newNode_le (s f : Nat) : (newNode s f).frequency ≤ f := by
  show f % 2 ^ 64 ≤ f
  exact Nat.mod_le _ _

/-- The leaves that step 4 of `main` makes of a histogram of `int` meet what the theorems
on the build loop ask for: they are leaves, as many as `findNumberOfLeaves` counts, one
fewer than the capacity `numLeaves + 1` of the queue, and their frequencies add up to less
than `2 ^ 64`. -/
theorem histogramLeaves_spec (histogram : List Int)
    (hint : ∀ i : Nat, histogram.getD i 0 < 2 ^ 31) :
    (∀ t ∈ histogramLeaves histogram, t.leaf = true) ∧
      (histogramLeaves histogram).length = findNumberOfLeaves histogram ∧
      (histogramLeaves histogram).length ≤ findNumberOfLeaves histogram + 1 ∧
      ((histogramLeaves histogram).map treeNode.frequency).sum < 2 ^ 64 := by
  have hlen : (histogramLeaves histogram).length = findNumberOfLeaves histogram := by
    simp only [histogramLeaves, findNumberOfLeaves, List.length_map]
    rfl
  refine ⟨?_, hlen, by omega, ?_⟩
  · intro t ht
    simp only [histogramLeaves, List.mem_map] at ht
    obtain ⟨i, _, rfl⟩ := ht
    rfl
  · have hb : ∀ x ∈ (histogramLeaves histogram).map treeNode.frequency, x ≤ 2 ^ 31 := by
      intro x hx
      simp only [histogramLeaves, List.map_map, List.mem_map, Function.comp] at hx
      obtain ⟨i, _, rfl⟩ := hx
      have h1 := frequency_newNode_le i (histogram.getD i 0).toNat
      have h2 := hint i
      omega
    have h1 := List.sum_le_card_nsmul _ _ hb
    have h2 : (histogramLeaves histogram).length ≤ 256 := by
      simp only [histogramLeaves, List.length_map]
      exact (List.length_filter_le _ _).trans (by simp)
    simp only [List.length_map, smul_eq_mul] at h1
    have h3 : (histogramLeaves histogram).length * 2 ^ 31 ≤ 256 * 2 ^ 31 :=
      Nat.mul_le_mul_right _ h2
    have h4 : 256 * 2 ^ 31 < 2 ^ 64 := by norm_num
    omega

/-! ## The weighted path length is the weighted length of the assigned codes -/

theorem leafSymbols_eq_map (t : treeNode) :
    leafSymbols t = (leafNodes t).map treeNode.symbol := by
  induction t with
  | leafNode s f => rfl
  | joinNode s f l r ihl ihr => simp [leafSymbols, leafNodes, ihl, ihr]

theorem sum_code_lengths (t : treeNode) :
    ∀ (codes : CodeTable) (cur : bitV), (leafSymbols t).Nodup →
      ((leafNodes t).map (fun n =>
          n.frequency * ((assignCodes t codes cur n.symbol).getD []).length)).sum =
        weight t * cur.length + costAt 0 t := by
  induction t with
  | leafNode s f =>
      intro codes cur _
      simp [leafNodes, assignCodes, setCode, treeNode.symbol, treeNode.frequency, appendCode,
        newBitVector, weight, costAt]
  | joinNode s f l r ihl ihr =>
      intro codes cur hnd
      simp only [leafSymbols] at hnd
      have hndl := (List.nodup_append.mp hnd).1
      have hndr := (List.nodup_append.mp hnd).2.1
      have hdis := (List.nodup_append.mp hnd).2.2
      have hl : (leafNodes l).map (fun n => n.frequency *
            ((assignCodes (joinNode s f l r) codes cur n.symbol).getD []).length) =
          (leafNodes l).map (fun n => n.frequency *
            ((assignCodes l codes (appendBit cur false) n.symbol).getD []).length) := by
        apply List.map_congr_left
        intro n hn
        have hs : n.symbol ∈ leafSymbols l := by
          rw [leafSymbols_eq_map]; exact List.mem_map.mpr ⟨n, hn, rfl⟩
        have hr : n.symbol ∉ leafSymbols r := fun h => hdis hs h
        simp only [assignCodes]
        rw [assignCodes_not_mem r _ _ _ hr]
      have hr : (leafNodes r).map (fun n => n.frequency *
            ((assignCodes (joinNode s f l r) codes cur n.symbol).getD []).length) =
          (leafNodes r).map (fun n => n.frequency *
            ((assignCodes r (assignCodes l codes (appendBit cur false)) (appendBit cur true)
              n.symbol).getD []).length) := by
        apply List.map_congr_left
        intro n _
        simp only [assignCodes, removeBitFromEnd_appendBit]
      simp only [leafNodes, List.map_append, List.sum_append]
      rw [hl, hr, ihl _ _ hndl, ihr _ _ hndr]
      have h1 := costAt_succ l 0
      have h2 := costAt_succ r 0
      simp only [Nat.zero_add] at h1 h2
      simp only [weight, costAt, Nat.zero_add, h1, h2, appendBit, List.length_append,
        List.length_cons, List.length_nil]
      ring

/-- With pairwise distinct leaf symbols the weighted path length of a tree is the sum over
its leaves of frequency times the length of the code that `assignCodes` stores for the
symbol of the leaf. -/
theorem cost_eq_sum_code_lengths (t : treeNode) (hnd : (leafSymbols t).Nodup) :
    cost t = ((leafNodes t).map (fun n =>
      n.frequency * ((assignCodes t emptyCodes (newBitVector 8) n.symbol).getD []).length)).sum := by
  rw [sum_code_lengths t emptyCodes (newBitVector 8) hnd]
  simp [newBitVector, cost]

/-! ## C11, C12: runs of `rebuildTree` on instructions that are not those of a tree -/

theorem rebuildLoop_run (rtl : Bool) (instructions : List Nat) (size : Int) :
    ∀ (n k : Nat) (s0 s : RebuildState),
      rebuildRun rtl instructions size n s0 = some s →
      rebuildLoop rtl instructions size (n + k) s0 = rebuildLoop rtl instructions size k s := by
  intro n
  induction n with
  | zero =>
      intro k s0 s h
      simp only [rebuildRun, Option.some.injEq] at h
      rw [h, Nat.zero_add]
  | succ n ih =>
      intro k s0 s h
      have e : n + 1 + k = (n + k) + 1 := by omega
      rw [e]
      simp only [rebuildRun] at h
      by_cases hlt : (s0.index : Int) < size
      · simp only [hlt, if_true] at h
        simp only [rebuildLoop, hlt, if_true]
        cases hstep : rebuildStep rtl instructions s0 with
        | none => simp [hstep] at h
        | some s1 =>
            simp only [hstep] at h ⊢
            exact ih k s1 s h
      · simp [hlt] at h

theorem rebuildTree_eq_loop (rtl : Bool) (fuel : Nat) (instructions : List Nat) (size : Int) :
    rebuildTree rtl fuel instructions size =
      rebuildLoop rtl instructions size fuel rebuildInit := rfl

/-- A result of `rebuildTree` other than running out of fuel excludes every other result,
whatever the fuel. -/
theorem rebuildTree_result_unique (rtl : Bool) (instructions : List Nat) (size : Int)
    (f1 f2 : Nat) (r : RebuildResult)
    (h1 : rebuildTree rtl f1 instructions size = r) (hr : r ≠ .outOfFuel)
    (h2 : rebuildTree rtl f2 instructions size ≠ .outOfFuel) :
    rebuildTree rtl f2 instructions size = r := by
  rw [← h1]
  exact (rebuildLoop_fuel_irrelevant rtl instructions size f1 f2 _ (by
    rw [rebuildTree_eq_loop] at h1; rw [rebuildInit] at h1; rw [h1]; exact hr) h2).symm

/-- With fewer than two nodes on the stack the two pops of a join give a `NULL` pointer,
which `join` dereferences. -/
theorem joinPopped_underflow (rtl : Bool) (stack : huffStack) (h : stack.top < 2) :
    joinPopped rtl stack = none := by
  have h01 : stack.top = 0 ∨ stack.top = 1 := by omega
  rcases h01 with h0 | h1
  · cases rtl <;> simp [joinPopped, popHuffStack, emptyHuffStack, h0]
  · cases rtl <;> simp [joinPopped, popHuffStack, emptyHuffStack, h1]

/-- A join that is processed with fewer than two nodes on the stack ends the run in a
`NULL` dereference. -/
theorem rebuildTree_fails_of_underflow (rtl : Bool) (instructions : List Nat) (size : Int)
    (n : Nat) (s : RebuildState)
    (hrun : rebuildRun rtl instructions size n rebuildInit = some s)
    (hlt : (s.index : Int) < size) (hJ : instructions.getD s.index 0 = 74)
    (htop : s.stack.top < 2) (k : Nat) :
    rebuildTree rtl (n + 1 + k) instructions size = .nullDereference := by
  have e : n + 1 + k = n + (k + 1) := by omega
  rw [rebuildTree_eq_loop, e, rebuildLoop_run rtl instructions size n (k + 1) _ s hrun]
  simp only [rebuildLoop, hlt, if_true, rebuildStep, hJ,
    joinPopped_underflow rtl s.stack htop]
  rfl

/-- C11 (the code at the failing inputs): for every instruction string in which a `'J'`
token is processed while fewer than two nodes are on the stack (the loop reaches, after
some passes, an index below `size` that holds `'J'`, with `top < 2`), `rebuildTree` has no
check and no error of its own: `popHuffStack` returns `NULL` for the missing node and `join`
dereferences it, which is undefined in C. The run ends there, for every fuel that reaches
the token, and no fuel makes it return. -/
theorem rebuildTree_join_underflow (rtl : Bool) (instructions : List Nat) (size : Int)
    (n : Nat) (s : RebuildState)
    (hrun : rebuildRun rtl instructions size n rebuildInit = some s)
    (hlt : (s.index : Int) < size) (hJ : instructions.getD s.index 0 = 74)
    (htop : s.stack.top < 2) :
    (∀ k : Nat, rebuildTree rtl (n + 1 + k) instructions size = .nullDereference) ∧
      ∀ (fuel : Nat) (nd : Option treeNode),
        rebuildTree rtl fuel instructions size ≠ .returned nd := by
  have hfail := rebuildTree_fails_of_underflow rtl instructions size n s hrun hlt hJ htop
  refine ⟨hfail, ?_⟩
  intro fuel nd hret
  have := rebuildTree_result_unique rtl instructions size (n + 1 + 0) fuel .nullDereference
    (hfail 0) (by simp) (by rw [hret]; simp)
  rw [hret] at this
  simp at this

/-- C11 (witness): the string `"LaJ"` with `size = 3`: after the pass over the leaf one node
is on the stack, and the join dereferences `NULL`. -/
theorem rebuildTree_join_underflow_witness :
    (∀ k : Nat, rebuildTree true (1 + 1 + k) [76, 97, 74] 3 = .nullDereference) ∧
      ∀ (fuel : Nat) (nd : Option treeNode),
        rebuildTree true fuel [76, 97, 74] 3 ≠ .returned nd :=
  rebuildTree_join_underflow true [76, 97, 74] 3 1
    { index := 2, stack := pushHuffStack (newHuffStack 1000) (some (newNode 97 0)),
      node := some (newNode 97 0) }
    (by rfl) (by decide) (by decide) (by decide)

/-- The string `"J"` fails in the first pass: the stack is empty. -/
theorem rebuildTree_join_on_empty (rtl : Bool) (k : Nat) :
    rebuildTree rtl (1 + k) [74] 1 = .nullDereference :=
  rebuildTree_fails_of_underflow rtl [74] 1 0 rebuildInit rfl (by decide) (by decide)
    (by decide) k

/-- C12 (the code at the failing input): on the string `"X"` with `size = 1` the loop of
`rebuildTree` never ends, whatever the fuel: the last branch prints its message and leaves
`index` where it is. -/
theorem rebuildTree_malformed_never_stops (rtl : Bool) (fuel : Nat) :
    rebuildTree rtl fuel [88] 1 = .outOfFuel := by
  rw [rebuildTree_eq_loop]
  exact rebuildLoop_stuck rtl [88] 1 rebuildInit (by decide) (by decide) (by decide) fuel

/-- At every token position that holds a byte other than `'L'` and `'J'` the loop never
ends. -/
theorem rebuildTree_malformed_at (rtl : Bool) (instructions : List Nat) (size : Int)
    (n : Nat) (s : RebuildState)
    (hrun : rebuildRun rtl instructions size n rebuildInit = some s)
    (hlt : (s.index : Int) < size) (hL : instructions.getD s.index 0 ≠ 76)
    (hJ : instructions.getD s.index 0 ≠ 74) (k : Nat) :
    rebuildTree rtl (n + k) instructions size = .outOfFuel := by
  rw [rebuildTree_eq_loop, rebuildLoop_run rtl instructions size n k _ s hrun]
  exact rebuildLoop_stuck rtl instructions size s hlt hL hJ k

theorem rebuildStep_node (rtl : Bool) (instructions : List Nat) (s s1 : RebuildState)
    (h : rebuildStep rtl instructions s = some s1) : s1.node.isSome = true ∨ s1 = s := by
  unfold rebuildStep at h
  split at h
  · simp only [Option.some.injEq] at h
    left; rw [← h]; rfl
  · split at h
    · split at h
      · simp only [Option.some.injEq] at h
        left; rw [← h]; rfl
      · simp at h
    · simp only [Option.some.injEq] at h
      right; exact h.symm

theorem rebuildRun_node (rtl : Bool) (instructions : List Nat) (size : Int) :
    ∀ (n : Nat) (s0 s : RebuildState), rebuildRun rtl instructions size n s0 = some s →
      s.node.isSome = true ∨ s = s0 := by
  intro n
  induction n with
  | zero =>
      intro s0 s h
      simp only [rebuildRun, Option.some.injEq] at h
      right; exact h.symm
  | succ n ih =>
      intro s0 s h
      simp only [rebuildRun] at h
      split at h
      · cases hstep : rebuildStep rtl instructions s0 with
        | none => simp [hstep] at h
        | some s1 =>
            simp only [hstep] at h
            rcases ih s1 s h with h1 | h1
            · left; exact h1
            · rw [h1]
              exact rebuildStep_node rtl instructions s0 s1 hstep
      · simp at h

/-! ## C14, C17, C18: the join of the two popped nodes, the reads, and the stack -/

/-- A join token on a stack with `b` on top and `a` below it: the node pushed is
`join a b` when the second argument of `join` is evaluated first, and `join b a` when the
first argument is evaluated first. -/
theorem rebuildStep_join (rtl : Bool) (instructions : List Nat) (i cap : Nat)
    (a b : treeNode) (rest : List treeNode) (nd : Option treeNode)
    (hJ : instructions.getD i 0 = 74) (hcap : rest.length + 2 ≤ cap) :
    rebuildStep rtl instructions { index := i, stack := stackOf (b :: a :: rest) cap, node := nd } =
      some { index := i + 1,
             stack := stackOf ((if rtl then join a b else join b a) :: rest) cap,
             node := some (if rtl then join a b else join b a) } := by
  simp only [rebuildStep, hJ, if_true, joinPopped]
  rw [stackOf_pop (a :: rest) cap b (by simp; omega), stackOf_pop rest cap a (by omega)]
  cases rtl
  · simp only [Bool.false_eq_true, if_false]
    rw [stackOf_push rest cap (join b a) (by omega)]
    rfl
  · simp only [if_true]
    rw [stackOf_push rest cap (join a b) (by omega)]
    rfl

/-- C14 (the code at the failing input): when the first argument of
`join(popHuffStack(stack), popHuffStack(stack))` is evaluated first, the string `"LaLbJ"`
yields a root whose left child is the leaf `b` (the first pop) and whose right child is
the leaf `a` (the second pop). -/
theorem rebuildTree_join_pairing_left_to_right :
    rebuildTree false 3 [76, 97, 76, 98, 74] 5 =
        .returned (some (joinNode 42 0 (leafNode 98 0) (leafNode 97 0))) ∧
      rebuildTree true 3 [76, 97, 76, 98, 74] 5 =
        .returned (some (joinNode 42 0 (leafNode 97 0) (leafNode 98 0))) := by
  refine ⟨by decide, by decide⟩

/-- C17 (the code at the failing input): on a buffer whose byte 0 is `'L'`, with
`size = 1`, `rebuildTree` returns a leaf that carries the byte at index 1, so it has read
the buffer at index `size`; the pass reads the indices 0 and 1. -/
theorem rebuildTree_reads_at_size (rtl : Bool) (x : Nat) :
    rebuildTree rtl 1 [76, x] 1 = .returned (some (newNode x 0)) ∧
      stepReads [76, x] rebuildInit = [0, 1] ∧
      rebuildRun rtl [76, x] 1 0 rebuildInit = some rebuildInit ∧
      ((rebuildInit.index : Nat) : Int) < 1 := by
  refine ⟨?_, rfl, rfl, by decide⟩
  simp [rebuildTree, rebuildLoop, rebuildStep]

theorem pushHuffStack_full (stack : huffStack) (node : Option treeNode)
    (h : stack.top = stack.size) : pushHuffStack stack node = stack := by
  simp [pushHuffStack, fullHuffStack, h]

theorem popHuffStack_empty (stack : huffStack) (h : stack.top = 0) :
    popHuffStack stack = (none, stack) := by
  simp [popHuffStack, emptyHuffStack, h]

/-- C18: for every stack with `top < size` (and `size` slots) and every node `n`,
`pushHuffStack(n)` followed by `popHuffStack` returns `n` and restores `top` and every entry
below it; `pushHuffStack` on a full stack and `popHuffStack` on an empty stack (which
returns `NULL`) leave the stack unchanged; and `top <= size` is kept by both operations. -/
theorem pushHuffStack_popHuffStack (stack : huffStack) (n : treeNode)
    (hlen : stack.entries.length = stack.size) (htop : stack.top < stack.size) :
    (popHuffStack (pushHuffStack stack (some n))).1 = some n ∧
      (popHuffStack (pushHuffStack stack (some n))).2.top = stack.top ∧
      (popHuffStack (pushHuffStack stack (some n))).2.size = stack.size ∧
      (∀ i : Nat, i < stack.top →
        (popHuffStack (pushHuffStack stack (some n))).2.entries.getD i none =
          stack.entries.getD i none) ∧
      (∀ (full : huffStack) (node : Option treeNode), full.top = full.size →
        pushHuffStack full node = full) ∧
      (∀ empty : huffStack, empty.top = 0 → popHuffStack empty = (none, empty)) ∧
      (∀ (st : huffStack) (node : Option treeNode), st.top ≤ st.size →
        (pushHuffStack st node).top ≤ (pushHuffStack st node).size ∧
        (popHuffStack st).2.top ≤ (popHuffStack st).2.size) := by
  have hne : (stack.top == stack.size) = false := by simp; omega
  have hpush : pushHuffStack stack (some n) =
      { stack with entries := stack.entries.set stack.top (some n), top := stack.top + 1 } := by
    simp [pushHuffStack, fullHuffStack, hne]
  have hpop : popHuffStack (pushHuffStack stack (some n)) =
      ((stack.entries.set stack.top (some n)).getD stack.top none,
        { stack with entries := (stack.entries.set stack.top (some n)).set stack.top none,
                     top := stack.top }) := by
    rw [hpush]
    simp [popHuffStack, emptyHuffStack]
  have hlt : stack.top < stack.entries.length := by omega
  refine ⟨?_, ?_, ?_, ?_, pushHuffStack_full, popHuffStack_empty, ?_⟩
  · rw [hpop]
    simp [List.getD_eq_getElem?_getD, List.getElem?_set, hlt]
  · rw [hpop]
  · rw [hpop]
  · intro i hi
    rw [hpop]
    have hne2 : stack.top ≠ i := by omega
    simp [List.getD_eq_getElem?_getD, List.getElem?_set, hne2]
  · intro st node hle
    constructor
    · unfold pushHuffStack fullHuffStack
      split
      · rename_i h
        simp only [Bool.not_eq_true', beq_eq_false_iff_ne, ne_eq] at h
        show st.top + 1 ≤ st.size
        omega
      · exact hle
    · unfold popHuffStack emptyHuffStack
      split
      · show st.top - 1 ≤ st.size
        omega
      · exact hle

/-- C18 (witness): a push and a pop on the stack of 3 slots that holds one node. -/
theorem pushHuffStack_popHuffStack_witness :
    (popHuffStack (pushHuffStack (pushHuffStack (newHuffStack 3) (some (leafNode 97 0)))
        (some (leafNode 98 0)))).1 = some (leafNode 98 0) ∧
      (popHuffStack (pushHuffStack (pushHuffStack (newHuffStack 3) (some (leafNode 97 0)))
        (some (leafNode 98 0)))).2.top =
        (pushHuffStack (newHuffStack 3) (some (leafNode 97 0))).top ∧
      (popHuffStack (pushHuffStack (pushHuffStack (newHuffStack 3) (some (leafNode 97 0)))
        (some (leafNode 98 0)))).2.size =
        (pushHuffStack (newHuffStack 3) (some (leafNode 97 0))).size ∧
      (∀ i : Nat, i < (pushHuffStack (newHuffStack 3) (some (leafNode 97 0))).top →
        (popHuffStack (pushHuffStack (pushHuffStack (newHuffStack 3) (some (leafNode 97 0)))
          (some (leafNode 98 0)))).2.entries.getD i none =
          (pushHuffStack (newHuffStack 3) (some (leafNode 97 0))).entries.getD i none) ∧
      (∀ (full : huffStack) (node : Option treeNode), full.top = full.size →
        pushHuffStack full node = full) ∧
      (∀ empty : huffStack, empty.top = 0 → popHuffStack empty = (none, empty)) ∧
      (∀ (st : huffStack) (node : Option treeNode), st.top ≤ st.size →
        (pushHuffStack st node).top ≤ (pushHuffStack st node).size ∧
        (popHuffStack st).2.top ≤ (popHuffStack st).2.size) :=
  pushHuffStack_popHuffStack (pushHuffStack (newHuffStack 3) (some (leafNode 97 0)))
    (leafNode 98 0) (by decide) (by decide)

/-! ## C15: the histogram and its two sentinel bytes -/

theorem getD_set_int (h : List Int) (i j : Nat) (v : Int) :
    (h.set i v).getD j 0 = if i = j ∧ i < h.length then v else h.getD j 0 := by
  simp only [List.getD_eq_getElem?_getD, List.getElem?_set]
  by_cases hij : i = j
  · subst hij
    by_cases hlt : i < h.length
    · simp [hlt]
    · have : h[i]? = none := by
        rw [List.getElem?_eq_none_iff]; omega
      simp [hlt, this]
  · simp [hij]

/-- The loop over the buffer adds to each entry the number of occurrences of its byte, as
long as no entry can leave the range of `int`. -/
theorem countBytes_spec :
    ∀ (content : List Nat) (h0 : List Int),
      (∀ b : Nat, h0.getD b 0 + content.length ≤ 2147483647) →
      ∃ h, countBytes content h0 = some h ∧ h.length = h0.length ∧
        ∀ b : Nat, b < h0.length → h.getD b 0 = h0.getD b 0 + content.count b := by
  intro content
  induction content with
  | nil => intro h0 _; exact ⟨h0, rfl, rfl, by simp⟩
  | cons c rest ih =>
      intro h0 hb
      have hc := hb c
      simp only [List.length_cons, Nat.cast_add, Nat.cast_one] at hc
      have hlt : h0.getD c 0 < 2147483647 := by omega
      have hb1 : ∀ b : Nat, (h0.set c (h0.getD c 0 + 1)).getD b 0 + rest.length ≤ 2147483647 := by
        intro b
        have := hb b
        simp only [List.length_cons, Nat.cast_add, Nat.cast_one] at this
        rw [getD_set_int]
        split
        · rename_i hcb; rw [hcb.1] at hc ⊢; omega
        · omega
      obtain ⟨h, hrun, hlen, hval⟩ := ih (h0.set c (h0.getD c 0 + 1)) hb1
      refine ⟨h, ?_, by rw [hlen]; simp, ?_⟩
      · simp only [countBytes, histogramIncr, intIncr, hlt, if_true]
        exact hrun
      · intro b hbl
        rw [hval b (by simpa using hbl), getD_set_int, List.count_cons]
        by_cases hcb : c = b
        · have : c < h0.length := by omega
          simp [hcb, this]
          rw [← hcb]; omega
        · have hne : ¬ (c == b) = true := by simpa using hcb
          simp [hcb, hne]

theorem getD_replicate_zero (n b : Nat) : (List.replicate n (0 : Int)).getD b 0 = 0 := by
  simp only [List.getD_eq_getElem?_getD, List.getElem?_replicate]
  split <;> rfl

theorem length_filter_range_ge_two (p : Nat → Bool) (h0 : p 0 = true) (h255 : p 255 = true) :
    2 ≤ ((List.range 256).filter p).length := by
  have hsub : [0, 255] ⊆ (List.range 256).filter p := by
    intro x hx
    simp only [List.mem_cons, List.mem_singleton, List.not_mem_nil, or_false] at hx
    rcases hx with rfl | rfl
    · exact List.mem_filter.mpr ⟨List.mem_range.mpr (by norm_num), h0⟩
    · exact List.mem_filter.mpr ⟨List.mem_range.mpr (by norm_num), h255⟩
  have := (List.subperm_of_subset (by decide : ([0, 255] : List Nat).Nodup) hsub).length_le
  simpa using this

theorem length_histogramLeaves (histogram : List Int) :
    (histogramLeaves histogram).length = findNumberOfLeaves histogram := by
  simp only [histogramLeaves, findNumberOfLeaves, List.length_map]
  rfl

/-- What `setHistogram` makes of the all-zero histogram while no `int` overflows. -/
theorem setHistogram_eq (content : List Nat) (hlen : content.length ≤ 2147483647)
    (hc0 : content.count 0 < 2147483647) (hc255 : content.count 255 < 2147483647) :
    ∃ h, setHistogram (List.replicate 256 0) content = some h ∧ h.length = 256 ∧
      ∀ b : Nat, b < 256 →
        h.getD b 0 = content.count b + (if b = 0 ∨ b = 255 then 1 else 0) := by
  obtain ⟨h, hrun, hl, hval⟩ := countBytes_spec content (List.replicate 256 0) (by
    intro b; rw [getD_replicate_zero]; omega)
  simp only [List.length_replicate] at hl hval
  have hv0 : h.getD 0 0 = content.count 0 := by
    rw [hval 0 (by norm_num), getD_replicate_zero]; simp
  have hv255 : h.getD 255 0 = content.count 255 := by
    rw [hval 255 (by norm_num), getD_replicate_zero]; simp
  have h0lt : h.getD 0 0 < 2147483647 := by
    rw [hv0]; omega
  have h255lt : (h.set 0 (h.getD 0 0 + 1)).getD 255 0 < 2147483647 := by
    rw [getD_set_int, if_neg (by omega), hv255]; omega
  refine ⟨(h.set 0 (h.getD 0 0 + 1)).set 255 ((h.set 0 (h.getD 0 0 + 1)).getD 255 0 + 1), ?_,
    by simp [hl], ?_⟩
  · have hnot : ¬ content.length > 2147483647 := by omega
    simp only [setHistogram, hnot, if_false, hrun, histogramIncr, intIncr, h0lt, h255lt,
      if_true]
  · intro b hb
    have hvb := hval b hb
    rw [getD_replicate_zero] at hvb
    rw [getD_set_int]
    simp only [List.length_set, hl]
    by_cases hb0 : b = 0
    · subst hb0
      rw [if_neg (by omega), getD_set_int, if_pos (by omega), hv0]
      simp
    · by_cases hb255 : b = 255
      · subst hb255
        rw [if_pos (by omega), getD_set_int, if_neg (by omega), hv255]
        simp
      · rw [if_neg (by omega), getD_set_int, if_neg (by omega), hvb]
        simp [hb0, hb255]

/-- C15 (as amended): for every file content of at most `2 ^ 31 - 1` bytes that holds
each of the bytes 0 and 255 fewer than `2 ^ 31 - 1` times (as every content of fewer than
`2 ^ 31 - 1` bytes does), `setHistogram` applied to an all-zero histogram leaves
`histogram[b]` equal to the number of occurrences of byte `b` in the content, plus 1 when
`b` is 0 or 255; hence `histogram[0] >= 1` and `histogram[255] >= 1`, `findNumberOfLeaves`
returns at least 2, and the queue seeded from the histogram is not empty. -/
theorem setHistogram_sentinels (content : List Nat) (hlen : content.length ≤ 2147483647)
    (hc0 : content.count 0 < 2147483647) (hc255 : content.count 255 < 2147483647) :
    ∃ h, setHistogram (List.replicate 256 0) content = some h ∧
      (∀ b : Nat, b < 256 →
        h.getD b 0 = content.count b + (if b = 0 ∨ b = 255 then 1 else 0)) ∧
      1 ≤ h.getD 0 0 ∧ 1 ≤ h.getD 255 0 ∧ 2 ≤ findNumberOfLeaves h ∧
      emptyHuffPQueue
        (seedQueue (newHuffPQueue (findNumberOfLeaves h + 1)) (histogramLeaves h)) = false := by
  obtain ⟨h, hrun, _, hval⟩ := setHistogram_eq content hlen hc0 hc255
  have h0 : 1 ≤ h.getD 0 0 := by
    rw [hval 0 (by norm_num)]; simp
  have h255 : 1 ≤ h.getD 255 0 := by
    rw [hval 255 (by norm_num)]; simp
  have hn : 2 ≤ findNumberOfLeaves h := by
    apply length_filter_range_ge_two
    · simp only [decide_eq_true_eq]; omega
    · simp only [decide_eq_true_eq]; omega
  refine ⟨h, hrun, hval, h0, h255, hn, ?_⟩
  have hseed := seedQueue_entries (findNumberOfLeaves h + 1) (histogramLeaves h) [] (by
    simp [length_histogramLeaves])
  rw [newHuffPQueue, hseed]
  have hl := length_histogramLeaves h
  cases hL : histogramLeaves h with
  | nil => rw [hL] at hl; simp at hl; omega
  | cons t ts => simp [emptyHuffPQueue]

/-- C15 (witness): the histogram of the content `"a"`, byte 97. -/
theorem setHistogram_sentinels_witness :
    ∃ h, setHistogram (List.replicate 256 0) [97] = some h ∧
      (∀ b : Nat, b < 256 →
        h.getD b 0 = ([97] : List Nat).count b + (if b = 0 ∨ b = 255 then 1 else 0)) ∧
      1 ≤ h.getD 0 0 ∧ 1 ≤ h.getD 255 0 ∧ 2 ≤ findNumberOfLeaves h ∧
      emptyHuffPQueue
        (seedQueue (newHuffPQueue (findNumberOfLeaves h + 1)) (histogramLeaves h)) = false :=
  setHistogram_sentinels [97] (by decide) (by decide) (by decide)

theorem setHistogram_overflow (content : List Nat) (hlen : content.length = 2147483647)
    (hzero : content.count 0 = 2147483647) :
    setHistogram (List.replicate 256 0) content = none := by
  obtain ⟨h, hrun, _, hval⟩ := countBytes_spec content (List.replicate 256 0) (by
    intro b; rw [getD_replicate_zero]; omega)
  have hv0 : h.getD 0 0 = 2147483647 := by
    rw [hval 0 (by rw [List.length_replicate]; norm_num), getD_replicate_zero, hzero]; simp
  have hnot : ¬ content.length > 2147483647 := by omega
  simp only [setHistogram, hnot, if_false, hrun, histogramIncr, intIncr, hv0]
  rfl

/-- C15 (counterexample): for the file of `2 ^ 31 - 1` bytes 0 the loop brings
`histogram[0]` to `INT_MAX`, and `histogram[0] += 1` overflows: the program has no defined
result, so `histogram[0]` is not the number of occurrences plus 1. -/
theorem setHistogram_sentinels_counterexample :
    setHistogram (List.replicate 256 0) (List.replicate 2147483647 0) = none :=
  setHistogram_overflow (List.replicate 2147483647 0) (List.length_replicate _ _)
    (List.count_replicate_self 0 2147483647)

/-! ## C16: the capacity of the queue -/

theorem dequeueHuffPQueue_some (q q1 : huffPQueue) (d : treeNode)
    (h : dequeueHuffPQueue q = some (d, q1)) :
    q1.capacity = q.capacity ∧ q1.entries.length + 1 = q.entries.length := by
  unfold dequeueHuffPQueue at h
  split at h
  · simp at h
  · rename_i t ts hq
    simp only [Option.some.injEq, Prod.mk.injEq] at h
    rw [← h.2, hq]
    have := (removeMin_perm ts t).length_eq
    simp only [List.length_cons] at this ⊢
    exact ⟨trivial, this⟩

theorem enqueueHuffPQueue_bounds (q : huffPQueue) (node : treeNode) :
    (enqueueHuffPQueue q node).capacity = q.capacity ∧
      (enqueueHuffPQueue q node).entries.length ≤ q.entries.length + 1 := by
  unfold enqueueHuffPQueue
  split <;> simp

/-- A pass of the build loop keeps the capacity and does not add to the number of nodes in
the queue. -/
theorem buildStep_bounds (s s1 : BuildState) (h : buildStep s = some s1) :
    s1.treeQueue.capacity = s.treeQueue.capacity ∧
      s1.treeQueue.entries.length ≤ s.treeQueue.entries.length := by
  unfold buildStep at h
  cases hd1 : dequeueHuffPQueue s.treeQueue with
  | none => simp [hd1] at h
  | some p1 =>
      obtain ⟨d1, q1⟩ := p1
      have b1 := dequeueHuffPQueue_some _ _ _ hd1
      simp only [hd1] at h
      split at h
      · cases hd2 : dequeueHuffPQueue q1 with
        | none => simp [hd2] at h
        | some p2 =>
            obtain ⟨d2, q2⟩ := p2
            have b2 := dequeueHuffPQueue_some _ _ _ hd2
            have b3 := enqueueHuffPQueue_bounds q2 (join d1 d2)
            simp only [hd2, Option.some.injEq] at h
            rw [← h]
            simp only
            constructor
            · rw [b3.1, b2.1, b1.1]
            · omega
      · simp only [Option.some.injEq] at h
        rw [← h]
        simp only
        constructor
        · exact b1.1
        · omega

theorem buildRun_bounds :
    ∀ (j : Nat) (s0 s : BuildState), buildRun j s0 = some s →
      s.treeQueue.capacity = s0.treeQueue.capacity ∧
        s.treeQueue.entries.length ≤ s0.treeQueue.entries.length := by
  intro j
  induction j with
  | zero =>
      intro s0 s h
      simp only [buildRun, Option.some.injEq] at h
      rw [h]; exact ⟨rfl, Nat.le_refl _⟩
  | succ j ih =>
      intro s0 s h
      simp only [buildRun] at h
      split at h
      · cases hstep : buildStep s0 with
        | none => simp [hstep] at h
        | some s1 =>
            simp only [hstep] at h
            have b1 := buildStep_bounds s0 s1 hstep
            have b2 := ih s1 s h
            exact ⟨by rw [b2.1, b1.1], by omega⟩
      · simp at h

theorem findNumberOfLeaves_le_nonzeroEntries (histogram : List Int) :
    findNumberOfLeaves histogram ≤ nonzeroEntries histogram := by
  unfold findNumberOfLeaves nonzeroEntries
  rw [← List.countP_eq_length_filter, ← List.countP_eq_length_filter]
  apply List.countP_mono_left
  intro i _ hi
  simp only [decide_eq_true_eq] at hi ⊢
  omega

/-- C16: for every histogram, the queue is created with capacity
`findNumberOfLeaves(histogram) + 1`; while the leaves are enqueued, and after every pass of
the build loop, the number of nodes in the queue is at most `findNumberOfLeaves(histogram)`,
which is at most the number of nonzero entries; no leaf is refused in the seeding, and the
enqueue of a pass finds fewer nodes in the queue than its capacity. -/
theorem queue_capacity_suffices (histogram : List Int) :
    (newHuffPQueue (findNumberOfLeaves histogram + 1)).capacity =
        findNumberOfLeaves histogram + 1 ∧
      findNumberOfLeaves histogram ≤ nonzeroEntries histogram ∧
      (∀ k : Nat,
        (seedQueue (newHuffPQueue (findNumberOfLeaves histogram + 1))
            ((histogramLeaves histogram).take k)).entries = (histogramLeaves histogram).take k ∧
        ((histogramLeaves histogram).take k).length ≤ findNumberOfLeaves histogram) ∧
      (∀ (j : Nat) (s : BuildState),
        buildRun j { treeQueue := seedQueue (newHuffPQueue (findNumberOfLeaves histogram + 1))
                       (histogramLeaves histogram),
                     huffmanTree := none, joins := 0 } = some s →
        s.treeQueue.capacity = findNumberOfLeaves histogram + 1 ∧
          s.treeQueue.entries.length ≤ findNumberOfLeaves histogram ∧
          ∀ (d1 d2 : treeNode) (q1 q2 : huffPQueue),
            dequeueHuffPQueue s.treeQueue = some (d1, q1) →
            dequeueHuffPQueue q1 = some (d2, q2) →
            q2.entries.length < q2.capacity ∧
              (enqueueHuffPQueue q2 (join d1 d2)).entries = q2.entries ++ [join d1 d2]) := by
  have hlen := length_histogramLeaves histogram
  have htake : ∀ k : Nat,
      ((histogramLeaves histogram).take k).length ≤ findNumberOfLeaves histogram := by
    intro k
    rw [List.length_take]
    omega
  refine ⟨rfl, findNumberOfLeaves_le_nonzeroEntries histogram, ?_, ?_⟩
  · intro k
    refine ⟨?_, htake k⟩
    have := seedQueue_entries (findNumberOfLeaves histogram + 1)
      ((histogramLeaves histogram).take k) [] (by have := htake k; simp; omega)
    rw [newHuffPQueue, this]
    simp
  · intro j s hrun
    have hseed := seedQueue_entries (findNumberOfLeaves histogram + 1)
      (histogramLeaves histogram) [] (by simp; omega)
    rw [newHuffPQueue, hseed] at hrun
    have hb := buildRun_bounds j _ s hrun
    simp only [List.nil_append] at hb
    refine ⟨hb.1, by omega, ?_⟩
    intro d1 d2 q1 q2 h1 h2
    have b1 := dequeueHuffPQueue_some _ _ _ h1
    have b2 := dequeueHuffPQueue_some _ _ _ h2
    have hlt : q2.entries.length < q2.capacity := by
      rw [b2.1, b1.1, hb.1]; omega
    exact ⟨hlt, by simp [enqueueHuffPQueue, hlt]⟩

/-! ## C13: no check of the stack when the loop ends -/

theorem rebuildRun_add (rtl : Bool) (instructions : List Nat) (size : Int) :
    ∀ (n m : Nat) (s0 s1 s2 : RebuildState),
      rebuildRun rtl instructions size n s0 = some s1 →
      rebuildRun rtl instructions size m s1 = some s2 →
      rebuildRun rtl instructions size (n + m) s0 = some s2 := by
  intro n
  induction n with
  | zero =>
      intro m s0 s1 s2 h1 h2
      simp only [rebuildRun, Option.some.injEq] at h1
      rw [Nat.zero_add, h1]; exact h2
  | succ n ih =>
      intro m s0 s1 s2 h1 h2
      have e : n + 1 + m = (n + m) + 1 := by omega
      rw [e]
      simp only [rebuildRun] at h1 ⊢
      split at h1
      · rename_i hlt
        simp only [hlt, if_true]
        cases hstep : rebuildStep rtl instructions s0 with
        | none => simp [hstep] at h1
        | some s =>
            simp only [hstep] at h1 ⊢
            exact ih m s s1 s2 h1 h2
      · simp at h1

/-- The passes of the loop over the post-order instructions of a tree: one pass for each
node, after which the rebuilt tree lies on top of the stack and is the value of `node`. -/
theorem rebuildRun_ser (rtl : Bool) (cap : Nat) (size : Int) :
    ∀ (T : treeNode) (pre suf : List Nat) (items : List treeNode) (nd : Option treeNode),
      items.length + stackNeed T ≤ cap →
      ((pre.length + (ser T).length : Nat) : Int) ≤ size →
      rebuildRun rtl (pre ++ ser T ++ suf) size (numNodes T)
          { index := pre.length, stack := stackOf items cap, node := nd } =
        some { index := pre.length + (ser T).length,
               stack := stackOf (rebuiltBy rtl T :: items) cap,
               node := some (rebuiltBy rtl T) } := by
  intro T
  induction T with
  | leafNode s f =>
      intro pre suf items nd hcap hsize
      simp only [stackNeed] at hcap
      simp only [ser, List.length_cons, List.length_nil] at hsize ⊢
      have hlt : ((pre.length : Nat) : Int) < size := by omega
      simp only [numNodes, rebuildRun, hlt, if_true, rebuildStep, List.append_assoc,
        List.cons_append, List.nil_append, getD_at, getD_at_succ, rebuiltBy]
      rw [stackOf_push _ _ _ (by omega)]
  | joinNode s f l r ihl ihr =>
      intro pre suf items nd hcap hsize
      simp only [stackNeed] at hcap
      have hposl := stackNeed_pos l
      have hposr := stackNeed_pos r
      simp only [ser, List.length_append, List.length_cons, List.length_nil] at hsize ⊢
      have h1 := ihl pre (ser r ++ [74] ++ suf) items nd (by omega) (by omega)
      have e1 : pre ++ (ser l ++ ser r ++ [74]) ++ suf = pre ++ ser l ++ (ser r ++ [74] ++ suf) := by
        simp
      have h2 := ihr (pre ++ ser l) ([74] ++ suf) (rebuiltBy rtl l :: items)
        (some (rebuiltBy rtl l)) (by simp; omega) (by simp; omega)
      have e2 : pre ++ ser l ++ (ser r ++ [74] ++ suf) = pre ++ ser l ++ ser r ++ ([74] ++ suf) := by
        simp
      simp only [List.length_append] at h2
      rw [e1] 
      rw [e2] at h1 ⊢
      have hg : (pre ++ ser l ++ ser r ++ ([74] ++ suf)).getD
          (pre.length + (ser l).length + (ser r).length) 0 = 74 := by
        have e3 : pre ++ ser l ++ ser r ++ ([74] ++ suf) = (pre ++ ser l ++ ser r) ++ 74 :: suf := by
          simp
        rw [e3]
        have := getD_at (pre ++ ser l ++ ser r) suf 74
        simpa only [List.length_append] using this
      have hlt : ((pre.length + (ser l).length + (ser r).length : Nat) : Int) < size := by omega
      have h3 : rebuildRun rtl (pre ++ ser l ++ ser r ++ ([74] ++ suf)) size 1
          { index := pre.length + (ser l).length + (ser r).length,
            stack := stackOf (rebuiltBy rtl r :: rebuiltBy rtl l :: items) cap,
            node := some (rebuiltBy rtl r) } =
          some { index := pre.length + (ser l).length + (ser r).length + 1,
                 stack := stackOf ((if rtl then join (rebuiltBy rtl l) (rebuiltBy rtl r)
                   else join (rebuiltBy rtl r) (rebuiltBy rtl l)) :: items) cap,
                 node := some (if rtl then join (rebuiltBy rtl l) (rebuiltBy rtl r)
                   else join (rebuiltBy rtl r) (rebuiltBy rtl l)) } := by
        simp only [rebuildRun, hlt, if_true]
        rw [rebuildStep_join rtl _ _ cap (rebuiltBy rtl l) (rebuiltBy rtl r) items _ hg (by omega)]
      have h12 := rebuildRun_add rtl _ size _ _ _ _ _ h1 h2
      have h123 := rebuildRun_add rtl _ size _ _ _ _ _ h12 h3
      have en : numNodes (joinNode s f l r) = numNodes l + numNodes r + 1 := rfl
      rw [en, h123]
      have ei : pre.length + (ser l).length + (ser r).length + 1 =
          pre.length + ((ser l).length + (ser r).length + (0 + 1)) := by omega
      rw [ei]
      cases rtl <;> simp [rebuiltBy]

theorem rebuiltBy_true (T : treeNode) : rebuiltBy true T = rebuilt T := by
  induction T with
  | leafNode s f => rfl
  | joinNode s f l r ihl ihr => simp [rebuiltBy, rebuilt, ihl, ihr]

theorem stackOf_singleton (x : treeNode) (cap : Nat) :
    (stackOf [x] cap).top = 1 ∧ (stackOf [x] cap).entries.getD 0 none = some x := by
  simp [stackOf]

/-- C13 (as amended): `rebuildTree` raises no error for an incomplete tree, for it does
not look at the stack when its loop ends: for every run with `size > 0` whose loop ends
after `n` passes, it returns the variable `node` as the last pass left it, a tree (the node
made by the last `'L'` or `'J'`), however many nodes the stack holds then. For the
post-order instructions of a tree that needs at most 1000 stack slots the loop ends after
one pass for each node with exactly one node on the stack, the root, and that root is the
node returned. -/
theorem rebuildTree_no_final_check (rtl : Bool) (instructions : List Nat) (size : Int)
    (n : Nat) (s : RebuildState)
    (hrun : rebuildRun rtl instructions size n rebuildInit = some s)
    (hend : ¬ (s.index : Int) < size) (hpos : 0 < size) :
    ((∀ k : Nat, rebuildTree rtl (n + k) instructions size = .returned s.node) ∧
        ∃ t, s.node = some t) ∧
      ∀ T : treeNode, stackNeed T ≤ 1000 →
        rebuildRun rtl (ser T) (ser T).length (numNodes T) rebuildInit =
            some { index := (ser T).length, stack := stackOf [rebuiltBy rtl T] 1000,
                   node := some (rebuiltBy rtl T) } ∧
          (stackOf [rebuiltBy rtl T] 1000).top = 1 ∧
          (stackOf [rebuiltBy rtl T] 1000).entries.getD 0 none = some (rebuiltBy rtl T) ∧
          ∀ k : Nat, rebuildTree rtl (numNodes T + k) (ser T) (ser T).length =
            .returned (some (rebuiltBy rtl T)) := by
  refine ⟨⟨?_, ?_⟩, ?_⟩
  · intro k
    rw [rebuildTree_eq_loop, rebuildLoop_run rtl instructions size n k _ s hrun,
      rebuildLoop_done _ _ _ _ _ hend]
  · rcases rebuildRun_node rtl instructions size n _ s hrun with h | h
    · exact Option.isSome_iff_exists.mp h
    · rw [h] at hend
      exact absurd hpos hend
  · intro T hneed
    have hser := rebuildRun_ser rtl 1000 (ser T).length T [] [] [] none
      (by simpa using hneed) (by simp)
    simp only [List.nil_append, List.append_nil, List.length_nil, Nat.zero_add] at hser
    have hinit : rebuildInit = { index := 0, stack := stackOf [] 1000, node := none } := by
      rw [rebuildInit, newHuffStack_eq]
    rw [hinit]
    refine ⟨hser, rfl, (stackOf_singleton _ 1000).2, ?_⟩
    · intro k
      rw [rebuildTree_eq_loop, hinit,
        rebuildLoop_run rtl (ser T) (ser T).length (numNodes T) k _ _ hser,
        rebuildLoop_done _ _ _ _ _ (by simp)]

/-- C13 (witness): the string `"LaLb"` with `size = 4`: the loop ends after two passes with
two nodes on the stack, and the leaf `b` is returned. -/
theorem rebuildTree_no_final_check_witness :
    ((∀ k : Nat, rebuildTree true (2 + k) [76, 97, 76, 98] 4 = .returned (some (newNode 98 0))) ∧
        ∃ t, some (newNode 98 0) = some t) ∧
      ∀ T : treeNode, stackNeed T ≤ 1000 →
        rebuildRun true (ser T) (ser T).length (numNodes T) rebuildInit =
            some { index := (ser T).length, stack := stackOf [rebuiltBy true T] 1000,
                   node := some (rebuiltBy true T) } ∧
          (stackOf [rebuiltBy true T] 1000).top = 1 ∧
          (stackOf [rebuiltBy true T] 1000).entries.getD 0 none = some (rebuiltBy true T) ∧
          ∀ k : Nat, rebuildTree true (numNodes T + k) (ser T) (ser T).length =
            .returned (some (rebuiltBy true T)) :=
  rebuildTree_no_final_check true [76, 97, 76, 98] 4 2
    { index := 4,
      stack := pushHuffStack (pushHuffStack (newHuffStack 1000) (some (newNode 97 0)))
        (some (newNode 98 0)),
      node := some (newNode 98 0) }
    (by rfl) (by decide) (by decide)

/-- C13 (counterexample): on `"LaLb"` with `size = 4` two nodes remain on the stack when
the loop ends, and `rebuildTree` returns a tree, the leaf `b`, instead of failing, for
either order of evaluating the arguments of `join`. -/
theorem rebuildTree_no_final_check_counterexample :
    rebuildTree true 2 [76, 97, 76, 98] 4 = .returned (some (leafNode 98 0)) ∧
      rebuildTree false 2 [76, 97, 76, 98] 4 = .returned (some (leafNode 98 0)) ∧
      (rebuildRun true [76, 97, 76, 98] 4 2 rebuildInit).map (fun s => s.stack.top) = some 2 ∧
      (rebuildRun false [76, 97, 76, 98] 4 2 rebuildInit).map (fun s => s.stack.top) = some 2 := by
  refine ⟨by decide, by decide, by rfl, by rfl⟩

end Huffman
